import Mathlib

/-!
# Verification of the nuqs update-batching and cross-consumer sync core

Shallow embedding of `packages/nuqs/src/useQueryStates.ts` together with
models of its collaborators (`update-queue.ts`, `sync.ts`, `utils.ts`,
`defs.ts`), which are referenced but whose sources are not part of the
repository snapshot: those are modelled from the specification.

Conventions of the embedding:
- JavaScript `string | null` values are `Option String`, `undefined` is
  absence from an association list (so a record field read yields
  `Option (Option _)`: `none` is `undefined`, `some none` is `null`).
- `a ?? b` (nullish coalescing) is `jsNullish a b`.
- `URLSearchParams` is an association list `List (String × String)` with
  unique keys; `get` is `lookupKey`.
- Typed state values are drawn from an arbitrary type `α` with decidable
  equality standing in for JavaScript `===` on primitives.
-/

namespace Nuqs

/-- JavaScript nullish coalescing `a ?? b` on nullable values. -/
def jsNullish {α : Type} (a b : Option α) : Option α :=
  match a with
  | some x => some x
  | none => b

@[simp] theorem jsNullish_some {α : Type} (x : α) (b : Option α) :
    jsNullish (some x) b = some x := rfl

@[simp] theorem jsNullish_none {α : Type} (b : Option α) :
    jsNullish none b = b := rfl

/-- First-match lookup in an association list (JS object / `URLSearchParams.get`). -/
def lookupKey {κ β : Type} [DecidableEq κ] : List (κ × β) → κ → Option β
  | [], _ => none
  | (k', v) :: t, k => if k' = k then some v else lookupKey t k

/-- Set `k` to `v`, overwriting an existing binding in place (JS `obj[k] = v`). -/
def upsert {κ β : Type} [DecidableEq κ] : List (κ × β) → κ → β → List (κ × β)
  | [], k, v => [(k, v)]
  | (k', v') :: t, k, v =>
      if k' = k then (k, v) :: t else (k', v') :: upsert t k v

/-- Remove every binding of `k` (JS `URLSearchParams.delete(k)`). -/
def removeKey {κ β : Type} [DecidableEq κ] : List (κ × β) → κ → List (κ × β)
  | [], _ => []
  | (k', v) :: t, k => if k' = k then removeKey t k else (k', v) :: removeKey t k

/-- The keys of an association list are pairwise distinct (JS object keys
always are; `URLSearchParams` as produced here keeps them unique too). -/
def keysNodup {κ β : Type} [DecidableEq κ] (l : List (κ × β)) : Prop :=
  (l.map Prod.fst).Nodup

instance {κ β : Type} [DecidableEq κ] (l : List (κ × β)) : Decidable (keysNodup l) := by
  unfold keysNodup; infer_instance

@[simp] theorem lookupKey_nil {κ β : Type} [DecidableEq κ] (k : κ) :
    lookupKey ([] : List (κ × β)) k = none := rfl

@[simp] theorem lookupKey_cons {κ β : Type} [DecidableEq κ] (k' : κ) (v : β) (t : List (κ × β)) (k : κ) :
    lookupKey ((k', v) :: t) k = if k' = k then some v else lookupKey t k := rfl

theorem lookupKey_upsert_self {κ β : Type} [DecidableEq κ] (l : List (κ × β)) (k : κ) (v : β) :
    lookupKey (upsert l k v) k = some v := by
  induction l with
  | nil => simp [upsert, lookupKey]
  | cons hd t ih =>
      obtain ⟨k', v'⟩ := hd
      by_cases h : k' = k
      · simp [upsert, h, lookupKey]
      · simp [upsert, h, lookupKey, ih]

theorem lookupKey_upsert_ne {κ β : Type} [DecidableEq κ] (l : List (κ × β)) (k k₀ : κ) (v : β)
    (h : k₀ ≠ k) : lookupKey (upsert l k v) k₀ = lookupKey l k₀ := by
  induction l with
  | nil => simp [upsert, lookupKey, Ne.symm h]
  | cons hd t ih =>
      obtain ⟨k', v'⟩ := hd
      by_cases hk : k' = k
      · subst hk
        simp [upsert, lookupKey, Ne.symm h]
      · simp [upsert, hk, lookupKey, ih]

theorem lookupKey_removeKey_self {κ β : Type} [DecidableEq κ] (l : List (κ × β)) (k : κ) :
    lookupKey (removeKey l k) k = none := by
  induction l with
  | nil => rfl
  | cons hd t ih =>
      obtain ⟨k', v'⟩ := hd
      by_cases h : k' = k
      · simpa [removeKey, h] using ih
      · simp [removeKey, h, lookupKey, ih]

theorem lookupKey_removeKey_ne {κ β : Type} [DecidableEq κ] (l : List (κ × β)) (k k₀ : κ)
    (h : k₀ ≠ k) : lookupKey (removeKey l k) k₀ = lookupKey l k₀ := by
  induction l with
  | nil => rfl
  | cons hd t ih =>
      obtain ⟨k', v'⟩ := hd
      by_cases hk : k' = k
      · subst hk
        simp [removeKey, lookupKey, Ne.symm h, ih]
      · simp [removeKey, hk, lookupKey, ih]

theorem lookupKey_eq_none_of_not_mem {κ β : Type} [DecidableEq κ] (l : List (κ × β)) (k : κ)
    (h : k ∉ l.map Prod.fst) : lookupKey l k = none := by
  induction l with
  | nil => rfl
  | cons hd t ih =>
      obtain ⟨k', v'⟩ := hd
      simp only [List.map_cons, List.mem_cons] at h
      push_neg at h
      simp [lookupKey, Ne.symm h.1, ih h.2]

theorem mem_keys_upsert {κ β : Type} [DecidableEq κ] (l : List (κ × β)) (k a : κ) (v : β)
    (h : a ∈ (upsert l k v).map Prod.fst) : a ∈ l.map Prod.fst ∨ a = k := by
  induction l with
  | nil =>
      simp [upsert] at h
      right; exact h
  | cons hd t ih =>
      obtain ⟨k', v'⟩ := hd
      by_cases hk : k' = k
      · subst hk
        simp [upsert] at h
        rcases h with h | h
        · right; exact h
        · left; simp [h]
      · simp [upsert, hk] at h
        rcases h with h | h
        · left; simp [h]
        · rcases ih (by simpa using h) with h₂ | h₂
          · left; simp [h₂]
          · right; exact h₂

theorem keysNodup_upsert {κ β : Type} [DecidableEq κ] (l : List (κ × β)) (k : κ) (v : β)
    (h : keysNodup l) : keysNodup (upsert l k v) := by
  induction l with
  | nil => simp [upsert, keysNodup]
  | cons hd t ih =>
      obtain ⟨k', v'⟩ := hd
      unfold keysNodup at h ⊢
      simp only [List.map_cons, List.nodup_cons] at h
      by_cases hk : k' = k
      · subst hk
        simpa [upsert] using h
      · simp only [upsert, if_neg hk, List.map_cons, List.nodup_cons]
        refine ⟨fun hmem => ?_, ih h.2⟩
        rcases mem_keys_upsert t k k' v hmem with h₂ | h₂
        · exact h.1 h₂
        · exact hk h₂

/-! ## Options and parser configuration -/

/-- Modelled from the spec: `FLUSH_RATE_LIMIT_MS` from `update-queue.ts` (not
in the snapshot): the default minimum interval between URL flushes, in ms. -/
def FLUSH_RATE_LIMIT_MS : Nat := 50

/-- History mode of a URL update: `'replace' | 'push'`. -/
inductive HistoryMode
  | replace
  | push
deriving DecidableEq, Repr

/-- Modelled from the spec: the partial `Options` record of `defs.ts` (not in
the snapshot): per-call / per-key overrides for history mode, scroll
restoration, shallow routing, throttle interval, the scheduling hint for
deferring visible transitions (modelled as a `Bool` marker), and the
clear-on-default policy. Every field is optional (`none` is `undefined`). -/
structure Options where
  history : Option HistoryMode := none
  scroll : Option Bool := none
  shallow : Option Bool := none
  throttleMs : Option Nat := none
  startTransition : Option Bool := none
  clearOnDefault : Option Bool := none
deriving DecidableEq, Repr

/-- Group-level options of `useQueryStates` after applying the default values
of the hook signature (useQueryStates.ts lines 63-70). `startTransition`
defaults to `undefined`, so it stays optional. -/
structure HookOptions where
  history : HistoryMode := HistoryMode.replace
  scroll : Bool := false
  shallow : Bool := true
  throttleMs : Nat := FLUSH_RATE_LIMIT_MS
  clearOnDefault : Bool := false
  startTransition : Option Bool := none
deriving DecidableEq, Repr

/-- Fully resolved options handed to the Update Queue for one key
(useQueryStates.ts lines 187-199). -/
structure ResolvedOptions where
  history : HistoryMode
  shallow : Bool
  scroll : Bool
  throttleMs : Nat
  startTransition : Option Bool
deriving DecidableEq, Repr

/-- Outcome of a parser's `parse` function: a JS function returning
`T | null` that may also throw. -/
inductive ParseResult (α : Type)
  | ok (value : Option α)
  | threw (msg : String)

/-- One entry of the key map given to `useQueryStates`:
`Parser<Type> & Options & defaultValue?` (useQueryStates.ts lines 20-23).
`serialize` and `eq` are the optional parser fields (`parsers.ts` is not in
the snapshot; their shape is modelled from the spec §6); the `Options` fields
are the per-key overrides. -/
structure KeyMapValue (α : Type) where
  parse : String → ParseResult α
  serialize : Option (α → String) := none
  eq : Option (α → α → Bool) := none
  defaultValue : Option α := none
  history : Option HistoryMode := none
  scroll : Option Bool := none
  shallow : Option Bool := none
  throttleMs : Option Nat := none
  startTransition : Option Bool := none
  clearOnDefault : Option Bool := none

/-- Option resolution performed by `update` when enqueueing one key
(useQueryStates.ts lines 187-199): call-level options take precedence over
individual parser options, which take precedence over global options. -/
def resolveOptions {α : Type} (callOptions : Options) (parser : KeyMapValue α)
    (g : HookOptions) : ResolvedOptions :=
  { history := (jsNullish callOptions.history parser.history).getD g.history
    shallow := (jsNullish callOptions.shallow parser.shallow).getD g.shallow
    scroll := (jsNullish callOptions.scroll parser.scroll).getD g.scroll
    throttleMs := (jsNullish callOptions.throttleMs parser.throttleMs).getD g.throttleMs
    startTransition :=
      jsNullish callOptions.startTransition
        (jsNullish parser.startTransition g.startTransition) }

/-- The clear-on-default test of `update` (useQueryStates.ts lines 172-179):
the policy flag resolves call-level over per-key over group-level; the value
must be non-null, a default must be configured, and the resolved equality
(per-key `eq`, defaulting to `===`, embedded as decidable equality) must
relate the new value and the default. -/
def shouldClearOnDefault {α : Type} [DecidableEq α] (callOptions : Options)
    (parser : KeyMapValue α) (g : HookOptions) (value : Option α) : Bool :=
  ((jsNullish callOptions.clearOnDefault parser.clearOnDefault).getD g.clearOnDefault)
    &&
  (match value, parser.defaultValue with
   | some v, some d => (parser.eq.getD (fun a b => decide (a = b))) v d
   | _, _ => false)

/-! ## The Update Queue (modelled from the spec) -/

/-- A Pending Update in the process-wide Update Queue: the serialized value
(`none` is the tombstone meaning "remove this key") plus the navigation
options to apply at flush time. Modelled from the spec §3 (`update-queue.ts`
is not in the snapshot). -/
structure PendingUpdate where
  value : Option String
  options : ResolvedOptions
deriving DecidableEq, Repr

/-- Modelled from the spec §3/§4.1: the process-wide Update Queue state of
`update-queue.ts`, extended with the observables needed to reason about
Promise resolution: the log of resolutions (promise id ↦ parameter snapshot)
and the adapter's current URL search params. -/
structure QueueWorld where
  pending : List (String × PendingUpdate) := []
  cachedPromise : Option Nat := none
  nextPromiseId : Nat := 0
  timerDelay : Option Nat := none
  lastFlushedAt : Nat := 0
  resolutions : List (Nat × List (String × String)) := []
  searchParams : List (String × String) := []
deriving DecidableEq, Repr

/-- Modelled from the spec §4.1 (`enqueue`): serialize the value (`none`
deletes the key), store/overwrite the Pending Update for the key
(last-write-wins), and return the serialized form so the caller can update
its local cache synchronously. -/
def enqueueQueryStringUpdate {α : Type} (key : String) (value : Option α)
    (serialize : α → String) (options : ResolvedOptions) (w : QueueWorld) :
    Option String × QueueWorld :=
  let serialized := value.map serialize
  (serialized, { w with pending := upsert w.pending key ⟨serialized, options⟩ })

/-- Modelled from the spec §4.1: the throttle interval governing the next
flush, aggregated from the queued updates (the strongest requirement wins). -/
def queueThrottleMs (pending : List (String × PendingUpdate)) : Nat :=
  pending.foldl (fun acc kv => max acc kv.2.options.throttleMs) 0

/-- Modelled from the spec §4.1 (`scheduleFlush`): return the cached in-flight
Promise when one exists for the current window; otherwise create a fresh
handle and arm the timer for
`max(0, throttleMs * rateLimitFactor - timeSinceLastFlush)` (truncated `Nat`
subtraction is exactly the `max 0`). -/
def scheduleFlushToURL (w : QueueWorld) (now rateLimitFactor : Nat) :
    Nat × QueueWorld :=
  match w.cachedPromise with
  | some p => (p, w)
  | none =>
      let p := w.nextPromiseId
      let delay := queueThrottleMs w.pending * rateLimitFactor - (now - w.lastFlushedAt)
      (p, { w with
              cachedPromise := some p
              nextPromiseId := p + 1
              timerDelay := some delay })

/-- Apply every pending key/value pair to the URL parameter set: a serialized
string sets the key, a tombstone removes it. Modelled from the spec §4.1
(commit algorithm, step c). -/
def applyPending : List (String × PendingUpdate) → List (String × String) →
    List (String × String)
  | [], params => params
  | (k, pu) :: rest, params =>
      applyPending rest
        (match pu.value with
         | some s => upsert params k s
         | none => removeKey params k)

/-- Modelled from the spec §4.1 (commit algorithm): when the timer fires, read
and clear the pending map, apply it to the URL in one navigation, record the
flush timestamp, resolve the cached Promise with the resulting parameter
snapshot, and clear the cached Promise so the next enqueue starts a fresh
window. A flush with no armed Promise is a no-op. -/
def flushNow (w : QueueWorld) (now : Nat) : QueueWorld :=
  match w.cachedPromise with
  | none => w
  | some p =>
      let newParams := applyPending w.pending w.searchParams
      { pending := []
        cachedPromise := none
        nextPromiseId := w.nextPromiseId
        timerDelay := none
        lastFlushedAt := now
        resolutions := w.resolutions ++ [(p, newParams)]
        searchParams := newParams }

/-- The operations that can hit the Update Queue over time. -/
inductive QueueOp (α : Type)
  | enq (key : String) (value : Option α) (serialize : α → String)
        (options : ResolvedOptions)
  | schedule (now rateLimitFactor : Nat)
  | flush (now : Nat)

/-- One Update Queue operation. -/
def stepOp {α : Type} : QueueOp α → QueueWorld → QueueWorld
  | .enq k v ser o, w => (enqueueQueryStringUpdate k v ser o w).2
  | .schedule now f, w => (scheduleFlushToURL w now f).2
  | .flush now, w => flushNow w now

/-- Run a sequence of Update Queue operations. -/
def runOps {α : Type} : List (QueueOp α) → QueueWorld → QueueWorld
  | [], w => w
  | op :: rest, w => runOps rest (stepOp op w)

/-- Operations other than the flush timer firing (the synchronous work that
can happen before the next flush executes). -/
def nonFlushOp {α : Type} : QueueOp α → Prop
  | .flush _ => False
  | _ => True

instance {α : Type} (op : QueueOp α) : Decidable (nonFlushOp op) := by
  unfold nonFlushOp
  cases op <;> infer_instance

/-- Well-formedness of the promise bookkeeping: every resolved promise id is
below the id counter, the cached promise (if any) is below the counter and
not yet resolved, and no promise id has two resolutions. -/
def queueInv (w : QueueWorld) : Prop :=
  (∀ pid ∈ w.resolutions.map Prod.fst, pid < w.nextPromiseId) ∧
  (∀ p ∈ w.cachedPromise.toList,
      p < w.nextPromiseId ∧ p ∉ w.resolutions.map Prod.fst) ∧
  (w.resolutions.map Prod.fst).Nodup

instance (w : QueueWorld) : Decidable (queueInv w) := by
  unfold queueInv; infer_instance

theorem lookupKey_append {κ β : Type} [DecidableEq κ] (l₁ l₂ : List (κ × β)) (k : κ)
    (h : lookupKey l₁ k = none) : lookupKey (l₁ ++ l₂) k = lookupKey l₂ k := by
  induction l₁ with
  | nil => rfl
  | cons hd t ih =>
      obtain ⟨k', v'⟩ := hd
      by_cases hk : k' = k
      · simp [lookupKey, hk] at h
      · simp only [lookupKey, hk, if_neg] at h
        simp [lookupKey, hk, ih h]

theorem applyPending_lookup_none (pending : List (String × PendingUpdate))
    (params : List (String × String)) (k : String)
    (h : lookupKey pending k = none) :
    lookupKey (applyPending pending params) k = lookupKey params k := by
  induction pending generalizing params with
  | nil => rfl
  | cons hd rest ih =>
      obtain ⟨k₀, pu₀⟩ := hd
      by_cases hk : k₀ = k
      · simp [lookupKey, hk] at h
      · simp only [lookupKey, hk, if_neg] at h
        cases hv : pu₀.value with
        | some s =>
            simp only [applyPending, hv]
            rw [ih _ h, lookupKey_upsert_ne _ _ _ _ (fun hh => hk hh.symm)]
        | none =>
            simp only [applyPending, hv]
            rw [ih _ h, lookupKey_removeKey_ne _ _ _ (fun hh => hk hh.symm)]

theorem applyPending_lookup_some (pending : List (String × PendingUpdate))
    (params : List (String × String)) (k : String) (pu : PendingUpdate)
    (hnd : keysNodup pending) (h : lookupKey pending k = some pu) :
    lookupKey (applyPending pending params) k = pu.value := by
  induction pending generalizing params with
  | nil => simp [lookupKey] at h
  | cons hd rest ih =>
      obtain ⟨k₀, pu₀⟩ := hd
      unfold keysNodup at hnd
      simp only [List.map_cons, List.nodup_cons] at hnd
      by_cases hk : k₀ = k
      · subst hk
        simp only [lookupKey, if_pos rfl, Option.some.injEq, eq_self_iff_true,
          if_true] at h
        subst h
        have hrest : lookupKey rest k₀ = none :=
          lookupKey_eq_none_of_not_mem rest k₀ hnd.1
        cases hv : pu₀.value with
        | some s =>
            simp only [applyPending, hv]
            rw [applyPending_lookup_none _ _ _ hrest, lookupKey_upsert_self]
        | none =>
            simp only [applyPending, hv]
            rw [applyPending_lookup_none _ _ _ hrest, lookupKey_removeKey_self]
      · simp only [lookupKey, hk, if_neg] at h
        cases hv : pu₀.value with
        | some s =>
            simp only [applyPending, hv]
            exact ih _ hnd.2 h
        | none =>
            simp only [applyPending, hv]
            exact ih _ hnd.2 h

theorem scheduleFlushToURL_cached (w : QueueWorld) (now f : Nat) :
    (scheduleFlushToURL w now f).2.cachedPromise =
      some (scheduleFlushToURL w now f).1 := by
  unfold scheduleFlushToURL
  cases hc : w.cachedPromise with
  | some p => simpa using hc
  | none => rfl

theorem scheduleFlushToURL_pending (w : QueueWorld) (now f : Nat) :
    (scheduleFlushToURL w now f).2.pending = w.pending := by
  unfold scheduleFlushToURL
  cases hc : w.cachedPromise <;> rfl

theorem queueInv_stepOp {α : Type} (op : QueueOp α) (w : QueueWorld)
    (h : queueInv w) : queueInv (stepOp op w) := by
  obtain ⟨h₁, h₂, h₃⟩ := h
  cases op with
  | enq k v ser o =>
      exact ⟨h₁, h₂, h₃⟩
  | schedule now f =>
      simp only [stepOp, scheduleFlushToURL]
      cases hc : w.cachedPromise with
      | some p => exact ⟨h₁, h₂, h₃⟩
      | none =>
          refine ⟨?_, ?_, h₃⟩
          · intro pid hm
            exact Nat.lt_succ_of_lt (h₁ pid hm)
          · intro p hp
            simp only [Option.toList_some, List.mem_singleton] at hp
            subst hp
            exact ⟨Nat.lt_succ_self _, fun hm => absurd (h₁ _ hm) (lt_irrefl _)⟩
  | flush now =>
      simp only [stepOp, flushNow]
      cases hc : w.cachedPromise with
      | none => exact ⟨h₁, h₂, h₃⟩
      | some p =>
          have hp := h₂ p (by simp [hc])
          refine ⟨?_, ?_, ?_⟩
          · intro pid hm
            simp only [List.map_append, List.mem_append, List.map_cons,
              List.map_nil, List.mem_singleton] at hm
            rcases hm with hm | hm
            · exact h₁ pid hm
            · subst hm; exact hp.1
          · intro q hq
            simp at hq
          · simp only [List.map_append, List.map_cons, List.map_nil]
            exact List.Nodup.append h₃ (List.nodup_singleton p)
              (by intro a ha hb
                  simp only [List.mem_singleton] at hb
                  subst hb
                  exact hp.2 ha)

theorem queueInv_runOps {α : Type} (ops : List (QueueOp α)) (w : QueueWorld)
    (h : queueInv w) : queueInv (runOps ops w) := by
  induction ops generalizing w with
  | nil => exact h
  | cons op rest ih => exact ih _ (queueInv_stepOp op w h)

theorem resolutions_stepOp_mono {α : Type} (op : QueueOp α) (w : QueueWorld) :
    ∃ l, (stepOp op w).resolutions = w.resolutions ++ l := by
  cases op with
  | enq k v ser o => exact ⟨[], by simp [stepOp, enqueueQueryStringUpdate]⟩
  | schedule now f =>
      simp only [stepOp, scheduleFlushToURL]
      cases hc : w.cachedPromise with
      | some p => exact ⟨[], by simp⟩
      | none => exact ⟨[], by simp⟩
  | flush now =>
      simp only [stepOp, flushNow]
      cases hc : w.cachedPromise with
      | none => exact ⟨[], by simp⟩
      | some p => exact ⟨_, rfl⟩

theorem resolutions_runOps_mono {α : Type} (ops : List (QueueOp α)) (w : QueueWorld) :
    ∃ l, (runOps ops w).resolutions = w.resolutions ++ l := by
  induction ops generalizing w with
  | nil => exact ⟨[], by simp [runOps]⟩
  | cons op rest ih =>
      obtain ⟨l₁, hl₁⟩ := resolutions_stepOp_mono op w
      obtain ⟨l₂, hl₂⟩ := ih (stepOp op w)
      exact ⟨l₁ ++ l₂, by simp [runOps, hl₂, hl₁]⟩

theorem cachedPromise_stepOp_nonFlush {α : Type} (op : QueueOp α) (w : QueueWorld)
    (p : Nat) (hp : w.cachedPromise = some p) (hop : nonFlushOp op) :
    (stepOp op w).cachedPromise = some p := by
  cases op with
  | enq k v ser o => simpa [stepOp, enqueueQueryStringUpdate] using hp
  | schedule now f => simp [stepOp, scheduleFlushToURL, hp]
  | flush now => exact absurd hop (by simp [nonFlushOp])

theorem cachedPromise_runOps_nonFlush {α : Type} (ops : List (QueueOp α))
    (w : QueueWorld) (p : Nat) (hp : w.cachedPromise = some p)
    (hops : ∀ op ∈ ops, nonFlushOp op) :
    (runOps ops w).cachedPromise = some p := by
  induction ops generalizing w with
  | nil => exact hp
  | cons op rest ih =>
      exact ih _ (cachedPromise_stepOp_nonFlush op w p hp (hops op (by simp)))
        (fun o ho => hops o (by simp [ho]))

/-! ## Claims about the Update Queue -/

/-- C1: Every update call issued before the next flush executes returns the
same cached Promise handle (via `scheduleFlushToURL`); that handle resolves
exactly once, with the URL parameter snapshot taken immediately after the
flush commits. In particular two schedule calls separated only by non-flush
activity return the same handle, and under any continuation of queue
operations the handle keeps exactly one resolution, whose snapshot is the
parameter set produced by the commit. -/
theorem C1_promise_caching (w : QueueWorld) (now₁ f₁ now₂ f₂ nowF : Nat)
    (ops cont : List (QueueOp Int))
    (hops : ∀ op ∈ ops, nonFlushOp op)
    (hinv : queueInv w)
    (p₁ : Nat) (w₁ : QueueWorld) (h₁ : scheduleFlushToURL w now₁ f₁ = (p₁, w₁))
    (w₂ : QueueWorld) (h₂ : w₂ = runOps ops w₁)
    (p₂ : Nat) (w₃ : QueueWorld) (h₃ : scheduleFlushToURL w₂ now₂ f₂ = (p₂, w₃))
    (wF : QueueWorld) (hF : wF = flushNow w₃ nowF) :
    p₂ = p₁ ∧
    w₃ = w₂ ∧
    lookupKey wF.resolutions p₁ = some (applyPending w₃.pending w₃.searchParams) ∧
    wF.searchParams = applyPending w₃.pending w₃.searchParams ∧
    ((runOps cont wF).resolutions.map Prod.fst).count p₁ = 1 := by
  have hc₁ : w₁.cachedPromise = some p₁ := by
    have := scheduleFlushToURL_cached w now₁ f₁
    rw [h₁] at this
    exact this
  have hc₂ : w₂.cachedPromise = some p₁ := by
    rw [h₂]; exact cachedPromise_runOps_nonFlush ops w₁ p₁ hc₁ hops
  have hsched₂ : scheduleFlushToURL w₂ now₂ f₂ = (p₁, w₂) := by
    unfold scheduleFlushToURL
    rw [hc₂]
  rw [hsched₂] at h₃
  obtain ⟨hp₂, hw₃⟩ : p₂ = p₁ ∧ w₃ = w₂ := by
    have := h₃.symm
    exact ⟨congrArg Prod.fst this, congrArg Prod.snd this⟩
  have hinv₁ : queueInv w₁ := by
    have := queueInv_stepOp (QueueOp.schedule (α := Int) now₁ f₁) w hinv
    simpa [stepOp, h₁] using this
  have hinv₂ : queueInv w₂ := h₂ ▸ queueInv_runOps ops w₁ hinv₁
  have hinv₃ : queueInv w₃ := hw₃ ▸ hinv₂
  have hc₃ : w₃.cachedPromise = some p₁ := hw₃ ▸ hc₂
  have hnotres : p₁ ∉ w₃.resolutions.map Prod.fst :=
    (hinv₃.2.1 p₁ (by simp [hc₃])).2
  have hflush : wF = { pending := []
                       cachedPromise := none
                       nextPromiseId := w₃.nextPromiseId
                       timerDelay := none
                       lastFlushedAt := nowF
                       resolutions := w₃.resolutions ++
                         [(p₁, applyPending w₃.pending w₃.searchParams)]
                       searchParams := applyPending w₃.pending w₃.searchParams } := by
    rw [hF]
    unfold flushNow
    rw [hc₃]
  have hlook : lookupKey wF.resolutions p₁ =
      some (applyPending w₃.pending w₃.searchParams) := by
    rw [hflush]
    show lookupKey (w₃.resolutions ++ [(p₁, _)]) p₁ = _
    rw [lookupKey_append _ _ _ (lookupKey_eq_none_of_not_mem _ _ hnotres)]
    simp [lookupKey]
  have hinvF : queueInv wF := by
    have := queueInv_stepOp (QueueOp.flush (α := Int) nowF) w₃ hinv₃
    simpa [stepOp, ← hF] using this
  have hmemF : p₁ ∈ wF.resolutions.map Prod.fst := by
    rw [hflush]; simp
  have hcount : ((runOps cont wF).resolutions.map Prod.fst).count p₁ = 1 := by
    obtain ⟨l, hl⟩ := resolutions_runOps_mono cont wF
    have hinvE : queueInv (runOps cont wF) := queueInv_runOps cont wF hinvF
    have hmemE : p₁ ∈ (runOps cont wF).resolutions.map Prod.fst := by
      rw [hl]
      simp only [List.map_append, List.mem_append]
      exact Or.inl hmemF
    exact List.count_eq_one_of_mem hinvE.2.2 hmemE
  refine ⟨hp₂, hw₃, hlook, ?_, hcount⟩
  rw [hflush]

/-- Witness for C1 at a concrete input: the empty queue world, two schedule
calls with no interleaved operations, then a flush resolving promise 0 with
the empty snapshot, exactly once. -/
theorem C1_promise_caching_witness :
    (∀ op ∈ ([] : List (QueueOp Int)), nonFlushOp op) ∧
    queueInv ({} : QueueWorld) ∧
    ((0 : Nat) = 0 ∧
     (⟨[], some 0, 1, some 0, 0, [], []⟩ : QueueWorld) =
       (⟨[], some 0, 1, some 0, 0, [], []⟩ : QueueWorld) ∧
     lookupKey (⟨[], none, 1, none, 0, [(0, [])], []⟩ : QueueWorld).resolutions 0 =
       some (applyPending (⟨[], some 0, 1, some 0, 0, [], []⟩ : QueueWorld).pending
         (⟨[], some 0, 1, some 0, 0, [], []⟩ : QueueWorld).searchParams) ∧
     (⟨[], none, 1, none, 0, [(0, [])], []⟩ : QueueWorld).searchParams =
       applyPending (⟨[], some 0, 1, some 0, 0, [], []⟩ : QueueWorld).pending
         (⟨[], some 0, 1, some 0, 0, [], []⟩ : QueueWorld).searchParams ∧
     ((runOps ([] : List (QueueOp Int))
        (⟨[], none, 1, none, 0, [(0, [])], []⟩ : QueueWorld)).resolutions.map
          Prod.fst).count 0 = 1) := by
  refine ⟨by simp, by decide, ?_⟩
  exact C1_promise_caching {} 0 1 0 1 0 [] [] (by simp) (by decide)
    0 ⟨[], some 0, 1, some 0, 0, [], []⟩ rfl
    ⟨[], some 0, 1, some 0, 0, [], []⟩ rfl
    0 ⟨[], some 0, 1, some 0, 0, [], []⟩ rfl
    ⟨[], none, 1, none, 0, [(0, [])], []⟩ rfl

/-- C2: At most one Pending Update exists per query key; a later
`enqueueQueryStringUpdate` call for the same key overwrites the earlier one,
and after the flush only the last value for the key is present in the
committed parameter set (a tombstone removes the key). -/
theorem C2_last_write_wins {α : Type} (w : QueueWorld) (k : String)
    (v₁ v₂ : Option α) (ser₁ ser₂ : α → String) (o₁ o₂ : ResolvedOptions)
    (now f nowF : Nat)
    (hnd : keysNodup w.pending)
    (w₁ : QueueWorld) (h₁ : (enqueueQueryStringUpdate k v₁ ser₁ o₁ w).2 = w₁)
    (w₂ : QueueWorld) (h₂ : (enqueueQueryStringUpdate k v₂ ser₂ o₂ w₁).2 = w₂)
    (w₃ : QueueWorld) (h₃ : (scheduleFlushToURL w₂ now f).2 = w₃) :
    lookupKey w₂.pending k = some ⟨v₂.map ser₂, o₂⟩ ∧
    keysNodup w₂.pending ∧
    lookupKey (flushNow w₃ nowF).searchParams k = v₂.map ser₂ := by
  have hpend₁ : w₁.pending = upsert w.pending k ⟨v₁.map ser₁, o₁⟩ := by
    rw [← h₁]; rfl
  have hpend₂ : w₂.pending = upsert w₁.pending k ⟨v₂.map ser₂, o₂⟩ := by
    rw [← h₂]; rfl
  have hlook : lookupKey w₂.pending k = some ⟨v₂.map ser₂, o₂⟩ := by
    rw [hpend₂]; exact lookupKey_upsert_self _ _ _
  have hnd₂ : keysNodup w₂.pending := by
    rw [hpend₂, hpend₁]
    exact keysNodup_upsert _ _ _ (keysNodup_upsert _ _ _ hnd)
  refine ⟨hlook, hnd₂, ?_⟩
  have hpend₃ : w₃.pending = w₂.pending := by
    rw [← h₃]; exact scheduleFlushToURL_pending w₂ now f
  have hc₃ : w₃.cachedPromise = some (scheduleFlushToURL w₂ now f).1 := by
    rw [← h₃]; exact scheduleFlushToURL_cached w₂ now f
  have hparams : (flushNow w₃ nowF).searchParams =
      applyPending w₃.pending w₃.searchParams := by
    unfold flushNow
    rw [hc₃]
  rw [hparams, hpend₃]
  have := applyPending_lookup_some w₂.pending w₃.searchParams k
    ⟨v₂.map ser₂, o₂⟩ hnd₂ hlook
  simpa using this

/-- Witness for C2 at a concrete input: two enqueues of `lat` (42 then 12) on
the empty queue world, then a schedule and a flush; only `12` survives. -/
theorem C2_last_write_wins_witness :
    keysNodup ({} : QueueWorld).pending ∧
    lookupKey
        ((enqueueQueryStringUpdate "lat" (some (12 : Int)) toString
            ⟨HistoryMode.replace, true, false, 50, none⟩
            (enqueueQueryStringUpdate "lat" (some (42 : Int)) toString
              ⟨HistoryMode.replace, true, false, 50, none⟩ {}).2).2).pending
        "lat" =
      some ⟨some "12", ⟨HistoryMode.replace, true, false, 50, none⟩⟩ ∧
    lookupKey
        (flushNow
          ((scheduleFlushToURL
            (enqueueQueryStringUpdate "lat" (some (12 : Int)) toString
              ⟨HistoryMode.replace, true, false, 50, none⟩
              (enqueueQueryStringUpdate "lat" (some (42 : Int)) toString
                ⟨HistoryMode.replace, true, false, 50, none⟩ {}).2).2 0 1).2) 0).searchParams
        "lat" = some "12" := by
  refine ⟨by decide, ?_, ?_⟩
  · exact (C2_last_write_wins {} "lat" (some 42) (some 12) toString toString
      ⟨HistoryMode.replace, true, false, 50, none⟩
      ⟨HistoryMode.replace, true, false, 50, none⟩ 0 1 0 (by decide)
      _ rfl _ rfl _ rfl).1
  · exact (C2_last_write_wins {} "lat" (some 42) (some 12) toString toString
      ⟨HistoryMode.replace, true, false, 50, none⟩
      ⟨HistoryMode.replace, true, false, 50, none⟩ 0 1 0 (by decide)
      _ rfl _ rfl _ rfl).2.2

/-! ## The State Binding Layer (useQueryStates.ts) -/

/-- Consumer-local state of one `useQueryStates` binding: its key map, its
hook-level (group) options, the synchronously maintained resolved state
(`stateRef.current`, `none` values are null) and the per-key cache of
last-seen serialized values (`queryRef.current`). -/
structure Binding (α : Type) where
  keyMap : List (String × KeyMapValue α)
  options : HookOptions
  stateRef : List (String × Option α)
  queryRef : List (String × Option String)

/-- The Event Bus handler a binding registers for each of its managed keys
(useQueryStates.ts lines 119-147): on a `CrossHookSyncPayload`, replace the
resolved state for the key by `state ?? defaultValue ?? null` and the cached
serialized query by `query`. A binding not managing the key registered no
handler, so it is left untouched. -/
def applyCrossHookSync {α : Type} (k : String) (payload : Option α × Option String)
    (b : Binding α) : Binding α :=
  match lookupKey b.keyMap k with
  | none => b
  | some kmv =>
      { b with
          stateRef := upsert b.stateRef k (jsNullish payload.1 kmv.defaultValue)
          queryRef := upsert b.queryRef k payload.2 }

/-- A page: the process-wide Update Queue plus every active binding. The
emitter's subscriber registry (`sync.ts`, not in the snapshot; modelled from
the spec §4.2) is exactly the bindings' key maps. -/
structure PageWorld (α : Type) where
  queue : QueueWorld
  bindings : List (Binding α)

/-- Modelled from the spec §4.2 (`emit`): synchronously invoke, in
registration order, the handler of every binding subscribed to the key. -/
def emitPage {α : Type} (k : String) (payload : Option α × Option String)
    (w : PageWorld α) : PageWorld α :=
  { w with bindings := w.bindings.map (applyCrossHookSync k payload) }

/-- Observable events of a synchronous `update` call and of the later flush. -/
inductive TraceEvent
  | enqueueEv (key : String) (query : Option String)
  | emitEv (key : String)
  | scheduleEv (pid : Nat)
  | resolveEv (pid : Nat)
deriving DecidableEq, Repr

/-- The three forms of the first argument of the update function
(useQueryStates.ts lines 157-165): a direct partial mapping, an updater
function of the current resolved state, or the clear-all sentinel `null`. -/
inductive StateUpdater (α : Type)
  | map (entries : List (String × Option α))
  | fn (f : List (String × Option α) → List (String × Option α))
  | clearAll

/-- The per-entry body of the `update` loop (useQueryStates.ts lines
167-205): skip keys with no parser in the key map; substitute null when the
clear-on-default test fires; enqueue the update with
`parser.serialize ?? String` and the resolved options, storing the returned
serialized form in the binding's own `queryRef`; then synchronously emit the
cross-hook payload (its `query` field is the value just stored, `?? null`). -/
def processUpdateEntries {α : Type} [DecidableEq α] (jsToString : α → String)
    (i : Nat) (callOptions : Options) :
    List (String × Option α) → PageWorld α → PageWorld α × List TraceEvent
  | [], w => (w, [])
  | (k, value) :: rest, w =>
      match w.bindings[i]? with
      | none => processUpdateEntries jsToString i callOptions rest w
      | some b =>
          match lookupKey b.keyMap k with
          | none => processUpdateEntries jsToString i callOptions rest w
          | some parser =>
              let value' := if shouldClearOnDefault callOptions parser b.options value
                            then none else value
              let r := enqueueQueryStringUpdate k value'
                (parser.serialize.getD jsToString)
                (resolveOptions callOptions parser b.options) w.queue
              let b' := { b with queryRef := upsert b.queryRef k r.1 }
              let w' : PageWorld α := { queue := r.2, bindings := w.bindings.set i b' }
              let w'' := emitPage k (value', jsNullish r.1 none) w'
              let rr := processUpdateEntries jsToString i callOptions rest w''
              (rr.1, TraceEvent.enqueueEv k r.1 :: TraceEvent.emitEv k :: rr.2)

/-- The update function returned by `useQueryStates` (useQueryStates.ts lines
156-218), acting on the binding at index `i`: compute the new partial state —
applying an updater function to `stateRef.current`, or expanding the
clear-all sentinel into every managed key mapped to null — run the per-key
loop, and finish by returning the Update Queue's (possibly cached) flush
Promise via `scheduleFlushToURL`. Yields the promise id, the new world, and
the event trace of the synchronous call. -/
def updateImpl {α : Type} [DecidableEq α] (jsToString : α → String) (i : Nat)
    (su : StateUpdater α) (callOptions : Options) (now rateLimitFactor : Nat)
    (w : PageWorld α) : Nat × PageWorld α × List TraceEvent :=
  match w.bindings[i]? with
  | none => (0, w, [])
  | some b =>
      let newState : List (String × Option α) :=
        match su with
        | .fn f => f b.stateRef
        | .clearAll => b.keyMap.map (fun kv => (kv.1, (none : Option α)))
        | .map m => m
      let r := processUpdateEntries jsToString i callOptions newState w
      let s := scheduleFlushToURL r.1.queue now rateLimitFactor
      (s.1, ⟨s.2, r.1.bindings⟩, r.2 ++ [TraceEvent.scheduleEv s.1])

/-- The flush timer firing on a page: commit the queue to the URL and resolve
the cached Promise (bindings re-derive their state from the new URL through
`parseMap`, which is separate). -/
def flushPage {α : Type} (w : PageWorld α) (now : Nat) :
    PageWorld α × List TraceEvent :=
  match w.queue.cachedPromise with
  | none => (w, [])
  | some p => (⟨flushNow w.queue now, w.bindings⟩, [TraceEvent.resolveEv p])

/-! ## State derivation: parseMap and safeParse -/

/-- Severity of a logged diagnostic. -/
inductive LogLevel
  | warn
deriving DecidableEq, Repr

/-- A logged diagnostic: severity, the affected key, and a message. -/
structure Diagnostic where
  level : LogLevel
  key : String
  message : String
deriving DecidableEq, Repr

/-- Modelled from the spec §4.3/§7: `safeParse` from `utils.ts` (not in the
snapshot): run the parser; when it throws, log a warning-level diagnostic for
the key and fall back to null instead of propagating the exception. -/
def safeParse {α : Type} (parse : String → ParseResult α) (query : String)
    (key : String) : Option α × List Diagnostic :=
  match parse query with
  | .ok v => (v, [])
  | .threw msg => (none, [⟨LogLevel.warn, key, msg⟩])

/-- State derivation (useQueryStates.ts lines 224-244): for each managed key,
when both caches are provided and the cached serialized value for the key is
`===` to the current one (a missing cache entry, i.e. `undefined`, never
equals `query`), reuse `cachedState[key] ?? defaultValue ?? null` without
re-parsing; otherwise parse through `safeParse` (a null query parses to
null), resolve `value ?? defaultValue ?? null`, and record the new
serialized value in the cache. Returns the resolved values in key-map order,
the updated cache, and the logged diagnostics. -/
def parseMap {α : Type} :
    List (String × KeyMapValue α) → List (String × String) →
    Option (List (String × Option String)) → Option (List (String × Option α)) →
    List (String × Option α) × Option (List (String × Option String)) × List Diagnostic
  | [], _, cachedQuery, _ => ([], cachedQuery, [])
  | (k, kmv) :: rest, searchParams, cachedQuery, cachedState =>
      let query : Option String := lookupKey searchParams k
      let hit : Bool :=
        cachedQuery.isSome && cachedState.isSome &&
          decide (lookupKey (cachedQuery.getD []) k = some query)
      if hit then
        let value := jsNullish ((lookupKey (cachedState.getD []) k).bind id)
          kmv.defaultValue
        let r := parseMap rest searchParams cachedQuery cachedState
        ((k, value) :: r.1, r.2.1, r.2.2)
      else
        let pr : Option α × List Diagnostic :=
          match query with
          | none => (none, [])
          | some s => safeParse kmv.parse s k
        let value := jsNullish pr.1 kmv.defaultValue
        let cachedQuery' := cachedQuery.map (fun cq => upsert cq k query)
        let r := parseMap rest searchParams cachedQuery' cachedState
        ((k, value) :: r.1, r.2.1, pr.2 ++ r.2.2)

/-- The value `parseMap` resolves for one key when no caches are given (the
initial-render path): always the parse-else-default-else-null formula. -/
theorem parseMap_nocache_lookup {α : Type} (keyMap : List (String × KeyMapValue α))
    (params : List (String × String)) (j : String) (kmvj : KeyMapValue α)
    (hj : lookupKey keyMap j = some kmvj) :
    lookupKey (parseMap keyMap params none none).1 j =
      some (jsNullish
        (match lookupKey params j with
         | none => none
         | some sj => (safeParse kmvj.parse sj j).1)
        kmvj.defaultValue) := by
  induction keyMap with
  | nil => simp [lookupKey] at hj
  | cons hd rest ih =>
      obtain ⟨k₀, kmv₀⟩ := hd
      by_cases hk : k₀ = j
      · subst hk
        simp only [lookupKey, if_pos rfl, Option.some.injEq, eq_self_iff_true, if_true] at hj
        subst hj
        cases hq : lookupKey params k₀ <;> simp [parseMap, lookupKey, hq]
      · simp only [lookupKey, hk, if_neg] at hj
        simp only [parseMap, Option.isSome_none, Bool.false_and, Bool.and_false,
          if_neg Bool.false_ne_true, Option.map_none']
        simpa [lookupKey, hk] using ih hj

/-- When a key's parser throws during a cache-less `parseMap`, a warning
diagnostic carrying that key and the thrown message is logged. -/
theorem parseMap_nocache_diag {α : Type} (keyMap : List (String × KeyMapValue α))
    (params : List (String × String)) (k : String) (kmv : KeyMapValue α)
    (s msg : String)
    (hk : lookupKey keyMap k = some kmv)
    (hq : lookupKey params k = some s)
    (ht : kmv.parse s = ParseResult.threw msg) :
    (⟨LogLevel.warn, k, msg⟩ : Diagnostic) ∈ (parseMap keyMap params none none).2.2 := by
  induction keyMap with
  | nil => simp [lookupKey] at hk
  | cons hd rest ih =>
      obtain ⟨k₀, kmv₀⟩ := hd
      by_cases hkk : k₀ = k
      · subst hkk
        simp only [lookupKey, if_pos rfl, Option.some.injEq, eq_self_iff_true, if_true] at hk
        subst hk
        simp [parseMap, hq, safeParse, ht]
      · simp only [lookupKey, hkk, if_neg] at hk
        simp only [parseMap, Option.isSome_none, Bool.false_and, Bool.and_false,
          if_neg Bool.false_ne_true, Option.map_none']
        simp only [List.mem_append]
        exact Or.inr (ih hk)

/-- The value `parseMap` resolves for one key when both caches are given: a
cache hit reuses the cached resolved value (no parsing involved), a miss
parses the current serialized value. -/
theorem parseMap_cached_lookup {α : Type} (keyMap : List (String × KeyMapValue α))
    (params : List (String × String)) (cq : List (String × Option String))
    (cs : List (String × Option α)) (k : String) (kmv : KeyMapValue α)
    (hk : lookupKey keyMap k = some kmv) :
    lookupKey (parseMap keyMap params (some cq) (some cs)).1 k =
      some (if lookupKey cq k = some (lookupKey params k)
        then jsNullish ((lookupKey cs k).bind id) kmv.defaultValue
        else jsNullish
          (match lookupKey params k with
           | none => none
           | some s => (safeParse kmv.parse s k).1)
          kmv.defaultValue) := by
  induction keyMap generalizing cq with
  | nil => simp [lookupKey] at hk
  | cons hd rest ih =>
      obtain ⟨k₀, kmv₀⟩ := hd
      by_cases hkk : k₀ = k
      · subst hkk
        simp only [lookupKey, if_pos rfl, Option.some.injEq, eq_self_iff_true, if_true] at hk
        subst hk
        by_cases hhit : lookupKey cq k₀ = some (lookupKey params k₀)
        · simp [parseMap, hhit, lookupKey]
        · cases hq : lookupKey params k₀ <;>
            (rw [hq] at hhit; simp [parseMap, hhit, lookupKey, hq])
      · simp only [lookupKey, hkk, if_neg] at hk
        by_cases hhit : lookupKey cq k₀ = some (lookupKey params k₀)
        · simp only [parseMap, Option.isSome_some, Bool.true_and, Option.getD_some,
            hhit, decide_True, if_pos]
          simpa [lookupKey, hkk] using ih cq hk
        · simp only [parseMap, Option.isSome_some, Bool.true_and, Option.getD_some,
            hhit, decide_False, if_neg Bool.false_ne_true, Option.map_some']
          have := ih (upsert cq k₀ (lookupKey params k₀)) hk
          rw [lookupKey_upsert_ne _ _ _ _ (fun hh => hkk hh.symm)] at this
          simpa [lookupKey, hkk] using this

/-! ## Claims about state derivation -/

/-- C8: during state derivation, a managed key whose current serialized URL
value equals the locally cached previous serialized value reuses the
previously resolved typed value (`cached ?? default ?? null` — note the
formula involves no parsing); when the serialized value has changed, the new
string is parsed and the final resolved value is the parsed value, else the
configured default, else null. -/
theorem C8_memoized_derivation {α : Type} (keyMap : List (String × KeyMapValue α))
    (params : List (String × String)) (cq : List (String × Option String))
    (cs : List (String × Option α)) (k : String) (kmv : KeyMapValue α)
    (hk : lookupKey keyMap k = some kmv) :
    (lookupKey cq k = some (lookupKey params k) →
      lookupKey (parseMap keyMap params (some cq) (some cs)).1 k =
        some (jsNullish ((lookupKey cs k).bind id) kmv.defaultValue)) ∧
    (lookupKey cq k ≠ some (lookupKey params k) →
      lookupKey (parseMap keyMap params (some cq) (some cs)).1 k =
        some (jsNullish
          (match lookupKey params k with
           | none => none
           | some s => (safeParse kmv.parse s k).1)
          kmv.defaultValue)) := by
  constructor
  · intro hhit
    rw [parseMap_cached_lookup keyMap params cq cs k kmv hk, if_pos hhit]
  · intro hmiss
    rw [parseMap_cached_lookup keyMap params cq cs k kmv hk, if_neg hmiss]

/-- A sample parser entry resolving a string to its length, default 7. -/
def lengthKeyNat : KeyMapValue Nat :=
  { parse := fun s => ParseResult.ok (some s.length), defaultValue := some 7 }

/-- A sample parser entry that always throws, default 9. -/
def throwingKeyNat : KeyMapValue Nat :=
  { parse := fun _ => ParseResult.threw "boom", defaultValue := some 9 }

/-- Witness for C8 at a concrete input: a cache hit on key `q` reuses the
cached resolved value 5 (not the parse of "abc", which would be 3, nor the
default 7). -/
theorem C8_memoized_derivation_witness :
    lookupKey [("q", lengthKeyNat)] "q" = some lengthKeyNat ∧
    lookupKey [("q", some "abc")] "q" =
      some (lookupKey [("q", "abc")] "q") ∧
    lookupKey
        (parseMap [("q", lengthKeyNat)] [("q", "abc")]
          (some [("q", some "abc")]) (some [("q", some 5)])).1 "q" =
      some (some 5) := by
  refine ⟨rfl, rfl, ?_⟩
  exact (C8_memoized_derivation [("q", lengthKeyNat)] [("q", "abc")]
    [("q", some "abc")] [("q", some 5)] "q" lengthKeyNat rfl).1 rfl

/-- C9: a parse failure on one key during state derivation never escapes
`parseMap`: the failing key resolves to its configured default (or null), a
warning-level diagnostic carrying the key is logged, and every other managed
key is resolved normally. -/
theorem C9_parse_failure_nonfatal {α : Type} (keyMap : List (String × KeyMapValue α))
    (params : List (String × String)) (k : String) (kmv : KeyMapValue α)
    (s msg : String)
    (hk : lookupKey keyMap k = some kmv)
    (hq : lookupKey params k = some s)
    (ht : kmv.parse s = ParseResult.threw msg) :
    lookupKey (parseMap keyMap params none none).1 k = some kmv.defaultValue ∧
    (⟨LogLevel.warn, k, msg⟩ : Diagnostic) ∈ (parseMap keyMap params none none).2.2 ∧
    (∀ j kmvj, j ≠ k → lookupKey keyMap j = some kmvj →
      lookupKey (parseMap keyMap params none none).1 j =
        some (jsNullish
          (match lookupKey params j with
           | none => none
           | some sj => (safeParse kmvj.parse sj j).1)
          kmvj.defaultValue)) := by
  refine ⟨?_, parseMap_nocache_diag keyMap params k kmv s msg hk hq ht, ?_⟩
  · have h := parseMap_nocache_lookup keyMap params k kmv hk
    rw [hq] at h
    simpa [safeParse, ht] using h
  · intro j kmvj _ hj
    exact parseMap_nocache_lookup keyMap params j kmvj hj

/-- Witness for C9 at a concrete input: key `bad` throws and resolves to its
default 9 with a warning logged, while key `good` parses "abc" normally. -/
theorem C9_parse_failure_nonfatal_witness :
    lookupKey [("bad", throwingKeyNat), ("good", lengthKeyNat)] "bad" =
      some throwingKeyNat ∧
    lookupKey [("bad", "x"), ("good", "abc")] "bad" = some "x" ∧
    throwingKeyNat.parse "x" = ParseResult.threw "boom" ∧
    (lookupKey
        (parseMap [("bad", throwingKeyNat), ("good", lengthKeyNat)]
          [("bad", "x"), ("good", "abc")] none none).1 "bad" =
      some throwingKeyNat.defaultValue ∧
     (⟨LogLevel.warn, "bad", "boom"⟩ : Diagnostic) ∈
      (parseMap [("bad", throwingKeyNat), ("good", lengthKeyNat)]
        [("bad", "x"), ("good", "abc")] none none).2.2 ∧
     (∀ j kmvj, j ≠ "bad" →
        lookupKey [("bad", throwingKeyNat), ("good", lengthKeyNat)] j = some kmvj →
        lookupKey
            (parseMap [("bad", throwingKeyNat), ("good", lengthKeyNat)]
              [("bad", "x"), ("good", "abc")] none none).1 j =
          some (jsNullish
            (match lookupKey [("bad", "x"), ("good", "abc")] j with
             | none => none
             | some sj => (safeParse kmvj.parse sj j).1)
            kmvj.defaultValue))) := by
  refine ⟨rfl, rfl, rfl, ?_⟩
  exact C9_parse_failure_nonfatal
    [("bad", throwingKeyNat), ("good", lengthKeyNat)]
    [("bad", "x"), ("good", "abc")] "bad" throwingKeyNat "x" "boom" rfl rfl rfl

/-- Evaluation of one `update` call carrying a single-key mapping on a page
with a single binding managing exactly that key: the serialized value is
enqueued with the resolved options, the binding's own `queryRef` and (through
its own emit handler) `stateRef` are updated synchronously, and the call ends
in `scheduleFlushToURL`. -/
theorem updateImpl_single_binding {α : Type} [DecidableEq α]
    (jsToString : α → String) (k : String) (parser : KeyMapValue α)
    (g : HookOptions) (callOptions : Options) (v v' : Option α) (s' : Option String)
    (sR : List (String × Option α)) (qR : List (String × Option String))
    (queue₀ Q : QueueWorld) (now f : Nat)
    (hv' : (if shouldClearOnDefault callOptions parser g v then none else v) = v')
    (hs' : v'.map (parser.serialize.getD jsToString) = s')
    (hQ : Q = { queue₀ with
                pending := upsert queue₀.pending k ⟨s', resolveOptions callOptions parser g⟩ }) :
    updateImpl jsToString 0 (StateUpdater.map [(k, v)]) callOptions now f
      ⟨queue₀, [⟨[(k, parser)], g, sR, qR⟩]⟩ =
      ((scheduleFlushToURL Q now f).1,
       ⟨(scheduleFlushToURL Q now f).2,
        [⟨[(k, parser)], g,
          upsert sR k (jsNullish v' parser.defaultValue),
          upsert (upsert qR k s') k (jsNullish s' none)⟩]⟩,
       [TraceEvent.enqueueEv k s', TraceEvent.emitEv k,
        TraceEvent.scheduleEv (scheduleFlushToURL Q now f).1]) := by
  subst hv' hs' hQ
  simp [updateImpl, processUpdateEntries, emitPage, applyCrossHookSync,
    enqueueQueryStringUpdate, lookupKey]

/-! ## Claims about option resolution and clear-on-default -/

/-- C3: for every option field and every key of an update call, the resolved
option value is the call-level value when provided, else the per-key (parser)
value when provided, else the group-level (hook) value; the options enqueued
for the key are exactly this resolution, and the flush timer armed by the
call is governed by the resolved throttle interval. -/
theorem C3_option_precedence {α : Type} [DecidableEq α] (jsToString : α → String)
    (x : String) (parser : KeyMapValue α) (g : HookOptions) (callOptions : Options)
    (v : Option α) (sR : List (String × Option α)) (qR : List (String × Option String))
    (queue₀ : QueueWorld) (now f : Nat)
    (hp : queue₀.pending = []) (hc : queue₀.cachedPromise = none) :
    (lookupKey (updateImpl jsToString 0 (StateUpdater.map [(x, v)]) callOptions now f
        ⟨queue₀, [⟨[(x, parser)], g, sR, qR⟩]⟩).2.1.queue.pending x).map
        PendingUpdate.options = some (resolveOptions callOptions parser g) ∧
    (updateImpl jsToString 0 (StateUpdater.map [(x, v)]) callOptions now f
        ⟨queue₀, [⟨[(x, parser)], g, sR, qR⟩]⟩).2.1.queue.timerDelay =
      some ((resolveOptions callOptions parser g).throttleMs * f -
        (now - queue₀.lastFlushedAt)) ∧
    (∀ h, callOptions.history = some h →
      (resolveOptions callOptions parser g).history = h) ∧
    (callOptions.history = none → ∀ h, parser.history = some h →
      (resolveOptions callOptions parser g).history = h) ∧
    (callOptions.history = none → parser.history = none →
      (resolveOptions callOptions parser g).history = g.history) ∧
    (∀ h, callOptions.shallow = some h →
      (resolveOptions callOptions parser g).shallow = h) ∧
    (callOptions.shallow = none → ∀ h, parser.shallow = some h →
      (resolveOptions callOptions parser g).shallow = h) ∧
    (callOptions.shallow = none → parser.shallow = none →
      (resolveOptions callOptions parser g).shallow = g.shallow) ∧
    (∀ h, callOptions.scroll = some h →
      (resolveOptions callOptions parser g).scroll = h) ∧
    (callOptions.scroll = none → ∀ h, parser.scroll = some h →
      (resolveOptions callOptions parser g).scroll = h) ∧
    (callOptions.scroll = none → parser.scroll = none →
      (resolveOptions callOptions parser g).scroll = g.scroll) ∧
    (∀ h, callOptions.throttleMs = some h →
      (resolveOptions callOptions parser g).throttleMs = h) ∧
    (callOptions.throttleMs = none → ∀ h, parser.throttleMs = some h →
      (resolveOptions callOptions parser g).throttleMs = h) ∧
    (callOptions.throttleMs = none → parser.throttleMs = none →
      (resolveOptions callOptions parser g).throttleMs = g.throttleMs) ∧
    (∀ h, callOptions.startTransition = some h →
      (resolveOptions callOptions parser g).startTransition = some h) ∧
    (callOptions.startTransition = none → ∀ h, parser.startTransition = some h →
      (resolveOptions callOptions parser g).startTransition = some h) ∧
    (callOptions.startTransition = none → parser.startTransition = none →
      (resolveOptions callOptions parser g).startTransition = g.startTransition) := by
  have hr := updateImpl_single_binding jsToString x parser g callOptions v
    (if shouldClearOnDefault callOptions parser g v then none else v)
    ((if shouldClearOnDefault callOptions parser g v then none else v).map
      (parser.serialize.getD jsToString)) sR qR queue₀ _ now f rfl rfl rfl
  refine ⟨?_, ?_, ?_, ?_, ?_, ?_, ?_, ?_, ?_, ?_, ?_, ?_, ?_, ?_, ?_, ?_, ?_⟩
  · rw [hr]
    have : (scheduleFlushToURL { queue₀ with
        pending := upsert queue₀.pending x
          ⟨(if shouldClearOnDefault callOptions parser g v then none else v).map
              (parser.serialize.getD jsToString),
            resolveOptions callOptions parser g⟩ } now f).2.pending =
        upsert queue₀.pending x
          ⟨(if shouldClearOnDefault callOptions parser g v then none else v).map
              (parser.serialize.getD jsToString),
            resolveOptions callOptions parser g⟩ := scheduleFlushToURL_pending _ _ _
    rw [this, lookupKey_upsert_self]
    rfl
  · rw [hr]
    show (scheduleFlushToURL _ now f).2.timerDelay = _
    rw [hp]
    simp [scheduleFlushToURL, hc, upsert, queueThrottleMs]
  · intro h hh; simp [resolveOptions, hh, jsNullish]
  · intro h₁ h hh; simp [resolveOptions, h₁, hh, jsNullish]
  · intro h₁ h₂; simp [resolveOptions, h₁, h₂, jsNullish]
  · intro h hh; simp [resolveOptions, hh, jsNullish]
  · intro h₁ h hh; simp [resolveOptions, h₁, hh, jsNullish]
  · intro h₁ h₂; simp [resolveOptions, h₁, h₂, jsNullish]
  · intro h hh; simp [resolveOptions, hh, jsNullish]
  · intro h₁ h hh; simp [resolveOptions, h₁, hh, jsNullish]
  · intro h₁ h₂; simp [resolveOptions, h₁, h₂, jsNullish]
  · intro h hh; simp [resolveOptions, hh, jsNullish]
  · intro h₁ h hh; simp [resolveOptions, h₁, hh, jsNullish]
  · intro h₁ h₂; simp [resolveOptions, h₁, h₂, jsNullish]
  · intro h hh; simp [resolveOptions, hh, jsNullish]
  · intro h₁ h hh; simp [resolveOptions, h₁, hh, jsNullish]
  · intro h₁ h₂; simp [resolveOptions, h₁, h₂, jsNullish]

/-- A sample parser entry with a per-key throttle of 200 ms. -/
def throttledKeyInt : KeyMapValue Int :=
  { parse := fun _ => ParseResult.ok none, throttleMs := some 200 }

/-- Witness for C3 at a concrete input: group-level throttle 50 (the hook
default), per-key throttle 200, call-level throttle 10 — the enqueued options
carry 10 and the armed flush timer is 10 ms. -/
theorem C3_option_precedence_witness :
    ({} : QueueWorld).pending = [] ∧
    ({} : QueueWorld).cachedPromise = none ∧
    (lookupKey (updateImpl toString 0 (StateUpdater.map [("x", some (1 : Int))])
        { throttleMs := some 10 } 0 1
        ⟨{}, [⟨[("x", throttledKeyInt)], {}, [], []⟩]⟩).2.1.queue.pending "x").map
        PendingUpdate.options =
      some ⟨HistoryMode.replace, true, false, 10, none⟩ ∧
    (updateImpl toString 0 (StateUpdater.map [("x", some (1 : Int))])
        { throttleMs := some 10 } 0 1
        ⟨{}, [⟨[("x", throttledKeyInt)], {}, [], []⟩]⟩).2.1.queue.timerDelay =
      some 10 := by
  have h := C3_option_precedence toString "x" throttledKeyInt {}
    { throttleMs := some 10 } (some 1) [] [] {} 0 1 rfl rfl
  exact ⟨rfl, rfl, h.1, h.2.1⟩

/-- C4: in an update call, a key whose clear-on-default policy is active
(resolved call-level over per-key over group-level) and whose new non-null
value equals the configured default under the key's equality (per-key `eq`
when provided, else reference equality; call-level options carry no equality
override, so the per-key equality is the first layer) is enqueued as null:
the key is removed from the URL by the flush instead of being written as its
default. -/
theorem C4_clear_on_default {α : Type} [DecidableEq α] (jsToString : α → String)
    (k : String) (parser : KeyMapValue α) (g : HookOptions) (callOptions : Options)
    (v d : α) (sR : List (String × Option α)) (qR : List (String × Option String))
    (queue₀ : QueueWorld) (now f nowF : Nat)
    (hnd : keysNodup queue₀.pending)
    (hdef : parser.defaultValue = some d)
    (hactive : (jsNullish callOptions.clearOnDefault parser.clearOnDefault).getD
      g.clearOnDefault = true)
    (heq : (parser.eq.getD (fun a b => decide (a = b))) v d = true) :
    lookupKey (updateImpl jsToString 0 (StateUpdater.map [(k, some v)]) callOptions
        now f ⟨queue₀, [⟨[(k, parser)], g, sR, qR⟩]⟩).2.1.queue.pending k =
      some ⟨none, resolveOptions callOptions parser g⟩ ∧
    lookupKey (flushNow (updateImpl jsToString 0 (StateUpdater.map [(k, some v)])
        callOptions now f
        ⟨queue₀, [⟨[(k, parser)], g, sR, qR⟩]⟩).2.1.queue nowF).searchParams k =
      none ∧
    (∀ b₀, callOptions.clearOnDefault = some b₀ →
      (jsNullish callOptions.clearOnDefault parser.clearOnDefault).getD
        g.clearOnDefault = b₀) ∧
    (callOptions.clearOnDefault = none → ∀ b₀, parser.clearOnDefault = some b₀ →
      (jsNullish callOptions.clearOnDefault parser.clearOnDefault).getD
        g.clearOnDefault = b₀) ∧
    (callOptions.clearOnDefault = none → parser.clearOnDefault = none →
      (jsNullish callOptions.clearOnDefault parser.clearOnDefault).getD
        g.clearOnDefault = g.clearOnDefault) ∧
    (∀ e, parser.eq = some e →
      parser.eq.getD (fun a b => decide (a = b)) = e) ∧
    (parser.eq = none →
      parser.eq.getD (fun a b => decide (a = b)) = fun a b => decide (a = b)) := by
  have hshould : shouldClearOnDefault callOptions parser g (some v) = true := by
    simp only [shouldClearOnDefault, hdef, hactive, heq, Bool.true_and]
  have hr := updateImpl_single_binding jsToString k parser g callOptions (some v)
    none none sR qR queue₀ _ now f (by rw [hshould]; simp) (by simp) rfl
  have hpend : (updateImpl jsToString 0 (StateUpdater.map [(k, some v)]) callOptions
      now f ⟨queue₀, [⟨[(k, parser)], g, sR, qR⟩]⟩).2.1.queue.pending =
      upsert queue₀.pending k ⟨none, resolveOptions callOptions parser g⟩ := by
    rw [hr]
    exact scheduleFlushToURL_pending _ _ _
  have hcached : (updateImpl jsToString 0 (StateUpdater.map [(k, some v)]) callOptions
      now f ⟨queue₀, [⟨[(k, parser)], g, sR, qR⟩]⟩).2.1.queue.cachedPromise =
      some (scheduleFlushToURL { queue₀ with
        pending := upsert queue₀.pending k
          ⟨none, resolveOptions callOptions parser g⟩ } now f).1 := by
    rw [hr]
    exact scheduleFlushToURL_cached _ _ _
  refine ⟨?_, ?_, ?_, ?_, ?_, ?_, ?_⟩
  · rw [hpend, lookupKey_upsert_self]
  · unfold flushNow
    rw [hcached]
    show lookupKey (applyPending _ _) k = none
    rw [hpend]
    have := applyPending_lookup_some
      (upsert queue₀.pending k ⟨none, resolveOptions callOptions parser g⟩)
      (updateImpl jsToString 0 (StateUpdater.map [(k, some v)]) callOptions now f
        ⟨queue₀, [⟨[(k, parser)], g, sR, qR⟩]⟩).2.1.queue.searchParams k
      ⟨none, resolveOptions callOptions parser g⟩
      (keysNodup_upsert _ _ _ hnd) (lookupKey_upsert_self _ _ _)
    simpa using this
  · intro b₀ hb; simp [jsNullish, hb]
  · intro h₁ b₀ hb; simp [jsNullish, h₁, hb]
  · intro h₁ h₂; simp [jsNullish, h₁, h₂]
  · intro e he; simp [he]
  · intro he; simp [he]

/-- A sample parser entry for `count`: default 0, per-key clear-on-default. -/
def countKeyInt : KeyMapValue Int :=
  { parse := fun _ => ParseResult.ok none
    defaultValue := some 0
    clearOnDefault := some true }

/-- Witness for C4 at a concrete input: with clear-on-default active for
`count` (default 0), updating `count` to 0 enqueues a tombstone and leaves
`count` absent from the URL after the flush. -/
theorem C4_clear_on_default_witness :
    keysNodup ({ searchParams := [("count", "5")] } : QueueWorld).pending ∧
    countKeyInt.defaultValue = some 0 ∧
    (jsNullish ({} : Options).clearOnDefault countKeyInt.clearOnDefault).getD
      ({} : HookOptions).clearOnDefault = true ∧
    (countKeyInt.eq.getD (fun a b => decide (a = b))) 0 0 = true ∧
    lookupKey (updateImpl toString 0
        (StateUpdater.map [("count", some (0 : Int))]) {} 0 1
        ⟨{ searchParams := [("count", "5")] },
         [⟨[("count", countKeyInt)], {}, [], []⟩]⟩).2.1.queue.pending "count" =
      some ⟨none, ⟨HistoryMode.replace, true, false, 50, none⟩⟩ ∧
    lookupKey (flushNow (updateImpl toString 0
        (StateUpdater.map [("count", some (0 : Int))]) {} 0 1
        ⟨{ searchParams := [("count", "5")] },
         [⟨[("count", countKeyInt)], {}, [], []⟩]⟩).2.1.queue 0).searchParams
      "count" = none := by
  have h := C4_clear_on_default toString "count" countKeyInt {} {} 0 0 [] []
    { searchParams := [("count", "5")] } 0 1 0 (by decide) rfl rfl (by decide)
  exact ⟨by decide, rfl, rfl, by decide, h.1, h.2.1⟩

theorem lookupKey_mem {κ β : Type} [DecidableEq κ] (l : List (κ × β)) (k : κ) (v : β)
    (h : lookupKey l k = some v) : (k, v) ∈ l := by
  induction l with
  | nil => simp [lookupKey] at h
  | cons hd t ih =>
      obtain ⟨k', v'⟩ := hd
      by_cases hk : k' = k
      · subst hk
        simp only [lookupKey, if_pos rfl, Option.some.injEq, eq_self_iff_true,
          if_true] at h
        subst h
        exact List.mem_cons_self _ _
      · simp only [lookupKey, hk, if_neg] at h
        exact List.mem_cons_of_mem _ (ih h)

theorem scheduleFlushToURL_searchParams (w : QueueWorld) (now f : Nat) :
    (scheduleFlushToURL w now f).2.searchParams = w.searchParams := by
  unfold scheduleFlushToURL
  cases hc : w.cachedPromise <;> rfl

/-- One step of the update loop on a key the single binding manages. -/
theorem processUpdateEntries_cons_mem {α : Type} [DecidableEq α]
    (js : α → String) (co : Options) (km : List (String × KeyMapValue α))
    (gopts : HookOptions) (sR : List (String × Option α))
    (qR : List (String × Option String)) (queue : QueueWorld)
    (k : String) (v : Option α) (rest : List (String × Option α))
    (parser : KeyMapValue α) (hk : lookupKey km k = some parser)
    (v' : Option α) (q : Option String) (W : PageWorld α)
    (hv' : (if shouldClearOnDefault co parser gopts v then none else v) = v')
    (hq : v'.map (parser.serialize.getD js) = q)
    (hW : W = ⟨{ queue with
                 pending := upsert queue.pending k ⟨q, resolveOptions co parser gopts⟩ },
               [⟨km, gopts, upsert sR k (jsNullish v' parser.defaultValue),
                 upsert (upsert qR k q) k (jsNullish q none)⟩]⟩) :
    processUpdateEntries js 0 co ((k, v) :: rest) ⟨queue, [⟨km, gopts, sR, qR⟩]⟩ =
      ((processUpdateEntries js 0 co rest W).1,
       TraceEvent.enqueueEv k q :: TraceEvent.emitEv k ::
         (processUpdateEntries js 0 co rest W).2) := by
  subst hv' hq hW
  simp [processUpdateEntries, emitPage, applyCrossHookSync,
    enqueueQueryStringUpdate, hk]

/-- One step of the update loop on a key with no parser: skipped. -/
theorem processUpdateEntries_cons_nomem {α : Type} [DecidableEq α]
    (js : α → String) (co : Options) (km : List (String × KeyMapValue α))
    (gopts : HookOptions) (sR : List (String × Option α))
    (qR : List (String × Option String)) (queue : QueueWorld)
    (k : String) (v : Option α) (rest : List (String × Option α))
    (hk : lookupKey km k = none) :
    processUpdateEntries js 0 co ((k, v) :: rest) ⟨queue, [⟨km, gopts, sR, qR⟩]⟩ =
      processUpdateEntries js 0 co rest ⟨queue, [⟨km, gopts, sR, qR⟩]⟩ := by
  simp [processUpdateEntries, hk]

/-- Effect of the update loop when every entry carries the null value (the
expansion of the clear-all sentinel): managed keys present among the entries
end up with a tombstone Pending Update carrying their resolved options;
keys without a parser keep their pending state and are never emitted;
uniqueness of pending keys is preserved; keys outside the entries keep their
pending state; the URL params held by the queue are untouched. -/
theorem processClearEntries_effect {α : Type} [DecidableEq α]
    (js : α → String) (co : Options) (km : List (String × KeyMapValue α))
    (gopts : HookOptions) :
    ∀ (entries : List (String × Option α)) (queue : QueueWorld)
      (sR : List (String × Option α)) (qR : List (String × Option String)),
      (∀ e ∈ entries, e.2 = (none : Option α)) →
      keysNodup entries →
      ((∀ k parser, lookupKey km k = some parser →
          (k, (none : Option α)) ∈ entries →
          lookupKey (processUpdateEntries js 0 co entries
              ⟨queue, [⟨km, gopts, sR, qR⟩]⟩).1.queue.pending k =
            some ⟨none, resolveOptions co parser gopts⟩) ∧
       (∀ k', lookupKey km k' = none →
          lookupKey (processUpdateEntries js 0 co entries
              ⟨queue, [⟨km, gopts, sR, qR⟩]⟩).1.queue.pending k' =
            lookupKey queue.pending k' ∧
          TraceEvent.emitEv k' ∉ (processUpdateEntries js 0 co entries
              ⟨queue, [⟨km, gopts, sR, qR⟩]⟩).2) ∧
       (keysNodup queue.pending →
          keysNodup (processUpdateEntries js 0 co entries
            ⟨queue, [⟨km, gopts, sR, qR⟩]⟩).1.queue.pending) ∧
       (∀ k, k ∉ entries.map Prod.fst →
          lookupKey (processUpdateEntries js 0 co entries
              ⟨queue, [⟨km, gopts, sR, qR⟩]⟩).1.queue.pending k =
            lookupKey queue.pending k) ∧
       (processUpdateEntries js 0 co entries
          ⟨queue, [⟨km, gopts, sR, qR⟩]⟩).1.queue.searchParams =
         queue.searchParams) := by
  intro entries
  induction entries with
  | nil =>
      intro queue sR qR hall hnd
      refine ⟨?_, ?_, ?_, ?_, ?_⟩
      · intro k parser _ hmem; simp at hmem
      · intro k' _; exact ⟨rfl, by simp [processUpdateEntries]⟩
      · intro h; exact h
      · intro k _; rfl
      · rfl
  | cons hd rest ih =>
      intro queue sR qR hall hnd
      obtain ⟨k₀, v₀⟩ := hd
      have hv₀ : v₀ = none := hall (k₀, v₀) (by simp)
      subst hv₀
      have hallr : ∀ e ∈ rest, e.2 = (none : Option α) :=
        fun e he => hall e (by simp [he])
      have hndr : keysNodup rest := by
        unfold keysNodup at hnd ⊢
        simpa using ((List.nodup_cons.mp hnd).2)
      have hk₀nr : k₀ ∉ rest.map Prod.fst := by
        unfold keysNodup at hnd
        exact (List.nodup_cons.mp hnd).1
      cases hk₀ : lookupKey km k₀ with
      | none =>
          rw [processUpdateEntries_cons_nomem js co km gopts sR qR queue k₀ none
            rest hk₀]
          obtain ⟨ih1, ih2, ih3, ih4, ih5⟩ := ih queue sR qR hallr hndr
          refine ⟨?_, ih2, ih3, ?_, ih5⟩
          · intro k parser hkm hmem
            rcases List.mem_cons.mp hmem with hmem | hmem
            · obtain ⟨hk, -⟩ := Prod.mk.injEq .. ▸ hmem
              exact absurd hkm (by rw [hk, hk₀]; simp)
            · exact ih1 k parser hkm hmem
          · intro k hk
            exact ih4 k (fun hm => hk (by simp [hm]))
      | some parser₀ =>
          rw [processUpdateEntries_cons_mem js co km gopts sR qR queue k₀ none
            rest parser₀ hk₀ none none
            ⟨{ queue with pending := upsert queue.pending k₀ ⟨none, resolveOptions co parser₀ gopts⟩ },
             [⟨km, gopts, upsert sR k₀ (jsNullish none parser₀.defaultValue),
               upsert (upsert qR k₀ none) k₀ (jsNullish none none)⟩]⟩
            (by simp) rfl rfl]
          obtain ⟨ih1, ih2, ih3, ih4, ih5⟩ := ih
            { queue with pending := upsert queue.pending k₀ ⟨none, resolveOptions co parser₀ gopts⟩ }
            (upsert sR k₀ (jsNullish none parser₀.defaultValue))
            (upsert (upsert qR k₀ none) k₀ (jsNullish none none)) hallr hndr
          refine ⟨?_, ?_, ?_, ?_, ih5⟩
          · intro k parser hkm hmem
            rcases List.mem_cons.mp hmem with hmem | hmem
            · have hk : k = k₀ := by
                have := Prod.mk.injEq .. ▸ hmem
                exact this.1
              subst hk
              have hpp : parser = parser₀ := by
                rw [hkm] at hk₀
                exact Option.some.inj hk₀
              subst hpp
              rw [ih4 k hk₀nr]
              exact lookupKey_upsert_self _ _ _
            · exact ih1 k parser hkm hmem
          · intro k' hk'
            have hne : k' ≠ k₀ := by
              intro he
              rw [he] at hk'
              rw [hk'] at hk₀
              exact Option.noConfusion hk₀
            refine ⟨?_, ?_⟩
            · rw [(ih2 k' hk').1]
              exact lookupKey_upsert_ne _ _ _ _ hne
            · intro hmem
              rcases List.mem_cons.mp hmem with hmem | hmem
              · exact TraceEvent.noConfusion hmem
              · rcases List.mem_cons.mp hmem with hmem | hmem
                · exact hne (TraceEvent.emitEv.injEq .. ▸ hmem)
                · exact (ih2 k' hk').2 hmem
          · intro hqnd
            exact ih3 (keysNodup_upsert _ _ _ hqnd)
          · intro k hk
            have hne : k ≠ k₀ := fun he => hk (by simp [he])
            have hkr : k ∉ rest.map Prod.fst := fun hm => hk (by simp [hm])
            rw [ih4 k hkr]
            exact lookupKey_upsert_ne _ _ _ _ hne

/-- Unfolding of an `update(null)` (clear-all) call on a single-binding page:
the sentinel expands to every managed key mapped to null before the loop. -/
theorem updateImpl_clearAll_unfold {α : Type} [DecidableEq α]
    (js : α → String) (co : Options) (now f : Nat)
    (km : List (String × KeyMapValue α)) (gopts : HookOptions)
    (sR : List (String × Option α)) (qR : List (String × Option String))
    (queue : QueueWorld) :
    updateImpl js 0 StateUpdater.clearAll co now f
      ⟨queue, [⟨km, gopts, sR, qR⟩]⟩ =
      ((scheduleFlushToURL (processUpdateEntries js 0 co
          (km.map (fun kv => (kv.1, (none : Option α))))
          ⟨queue, [⟨km, gopts, sR, qR⟩]⟩).1.queue now f).1,
       ⟨(scheduleFlushToURL (processUpdateEntries js 0 co
          (km.map (fun kv => (kv.1, (none : Option α))))
          ⟨queue, [⟨km, gopts, sR, qR⟩]⟩).1.queue now f).2,
        (processUpdateEntries js 0 co
          (km.map (fun kv => (kv.1, (none : Option α))))
          ⟨queue, [⟨km, gopts, sR, qR⟩]⟩).1.bindings⟩,
       (processUpdateEntries js 0 co
          (km.map (fun kv => (kv.1, (none : Option α))))
          ⟨queue, [⟨km, gopts, sR, qR⟩]⟩).2 ++
         [TraceEvent.scheduleEv (scheduleFlushToURL (processUpdateEntries js 0 co
            (km.map (fun kv => (kv.1, (none : Option α))))
            ⟨queue, [⟨km, gopts, sR, qR⟩]⟩).1.queue now f).1]) := by
  simp [updateImpl]

theorem map_fst_clearAll_entries {α : Type} (km : List (String × KeyMapValue α)) :
    (km.map (fun kv => (kv.1, (none : Option α)))).map Prod.fst = km.map Prod.fst := by
  induction km with
  | nil => rfl
  | cons hd t ih => simp [ih]

/-- C5: passing the clear-all sentinel to the update function expands to a
mapping of every managed key to null, so every managed key gets a tombstone
Pending Update and is removed from the URL by the flush, while keys outside
the hook's key map are never enqueued, never emitted, and keep their URL
value. -/
theorem C5_clear_all {α : Type} [DecidableEq α] (js : α → String)
    (km : List (String × KeyMapValue α)) (gopts : HookOptions) (co : Options)
    (sR : List (String × Option α)) (qR : List (String × Option String))
    (queue₀ : QueueWorld) (now f nowF : Nat)
    (hkm : keysNodup km) (hp : queue₀.pending = [])
    (r : Nat × PageWorld α × List TraceEvent)
    (hr : r = updateImpl js 0 StateUpdater.clearAll co now f
      ⟨queue₀, [⟨km, gopts, sR, qR⟩]⟩) :
    (∀ k parser, lookupKey km k = some parser →
       lookupKey r.2.1.queue.pending k =
         some ⟨none, resolveOptions co parser gopts⟩ ∧
       lookupKey (flushNow r.2.1.queue nowF).searchParams k = none) ∧
    (∀ k', lookupKey km k' = none →
       lookupKey r.2.1.queue.pending k' = none ∧
       TraceEvent.emitEv k' ∉ r.2.2 ∧
       lookupKey (flushNow r.2.1.queue nowF).searchParams k' =
         lookupKey queue₀.searchParams k') := by
  rw [updateImpl_clearAll_unfold] at hr
  have hall : ∀ e ∈ km.map (fun kv => (kv.1, (none : Option α))),
      e.2 = (none : Option α) := by
    intro e he
    simp only [List.mem_map] at he
    obtain ⟨kv, -, hkv⟩ := he
    rw [← hkv]
  have hnd : keysNodup (km.map (fun kv => (kv.1, (none : Option α)))) := by
    unfold keysNodup
    rw [map_fst_clearAll_entries]
    exact hkm
  obtain ⟨E1, E2, E3, E4, E5⟩ := processClearEntries_effect js co km gopts
    (km.map (fun kv => (kv.1, (none : Option α)))) queue₀ sR qR hall hnd
  have hqpend : r.2.1.queue.pending =
      (processUpdateEntries js 0 co (km.map (fun kv => (kv.1, (none : Option α))))
        ⟨queue₀, [⟨km, gopts, sR, qR⟩]⟩).1.queue.pending := by
    rw [hr]
    exact scheduleFlushToURL_pending _ _ _
  have hqparams : r.2.1.queue.searchParams = queue₀.searchParams := by
    rw [hr]
    show (scheduleFlushToURL _ now f).2.searchParams = _
    rw [scheduleFlushToURL_searchParams]
    exact E5
  have hqcached : r.2.1.queue.cachedPromise =
      some (scheduleFlushToURL (processUpdateEntries js 0 co
        (km.map (fun kv => (kv.1, (none : Option α))))
        ⟨queue₀, [⟨km, gopts, sR, qR⟩]⟩).1.queue now f).1 := by
    rw [hr]
    exact scheduleFlushToURL_cached _ _ _
  have hndp : keysNodup r.2.1.queue.pending := by
    rw [hqpend]
    exact E3 (by rw [hp]; exact List.nodup_nil)
  have hflush : (flushNow r.2.1.queue nowF).searchParams =
      applyPending r.2.1.queue.pending r.2.1.queue.searchParams := by
    unfold flushNow
    rw [hqcached]
  constructor
  · intro k parser hkp
    have hmem : (k, (none : Option α)) ∈
        km.map (fun kv => (kv.1, (none : Option α))) := by
      have := lookupKey_mem km k parser hkp
      exact List.mem_map.mpr ⟨(k, parser), this, rfl⟩
    have hlk : lookupKey r.2.1.queue.pending k =
        some ⟨none, resolveOptions co parser gopts⟩ := by
      rw [hqpend]
      exact E1 k parser hkp hmem
    refine ⟨hlk, ?_⟩
    rw [hflush]
    have := applyPending_lookup_some r.2.1.queue.pending
      r.2.1.queue.searchParams k ⟨none, resolveOptions co parser gopts⟩ hndp hlk
    simpa using this
  · intro k' hk'
    have hlk : lookupKey r.2.1.queue.pending k' = none := by
      rw [hqpend, (E2 k' hk').1, hp]
      rfl
    refine ⟨hlk, ?_, ?_⟩
    · rw [hr]
      intro hmem
      rcases List.mem_append.mp hmem with hmem | hmem
      · exact (E2 k' hk').2 hmem
      · simp at hmem
    · rw [hflush, applyPending_lookup_none _ _ _ hlk, hqparams]

/-- A minimal parser entry with no options and no default. -/
def plainKeyInt : KeyMapValue Int :=
  { parse := fun _ => ParseResult.ok none }

/-- Witness for C5 at a concrete input: clearing a hook managing `lat` and
`lng` tombstones both and removes them from the URL, while `other` is never
emitted and keeps its URL value. -/
theorem C5_clear_all_witness :
    keysNodup [("lat", plainKeyInt), ("lng", plainKeyInt)] ∧
    ({ searchParams := [("lat", "42"), ("lng", "12"), ("other", "7")] } :
      QueueWorld).pending = [] ∧
    ((∀ k parser,
        lookupKey [("lat", plainKeyInt), ("lng", plainKeyInt)] k = some parser →
        lookupKey (updateImpl toString 0 StateUpdater.clearAll {} 0 1
            ⟨{ searchParams := [("lat", "42"), ("lng", "12"), ("other", "7")] },
             [⟨[("lat", plainKeyInt), ("lng", plainKeyInt)], {}, [], []⟩]⟩).2.1.queue.pending
            k = some ⟨none, resolveOptions {} parser {}⟩ ∧
        lookupKey (flushNow (updateImpl toString 0 StateUpdater.clearAll {} 0 1
            ⟨{ searchParams := [("lat", "42"), ("lng", "12"), ("other", "7")] },
             [⟨[("lat", plainKeyInt), ("lng", plainKeyInt)], {}, [], []⟩]⟩).2.1.queue
            0).searchParams k = none) ∧
     (∀ k', lookupKey [("lat", plainKeyInt), ("lng", plainKeyInt)] k' = none →
        lookupKey (updateImpl toString 0 StateUpdater.clearAll {} 0 1
            ⟨{ searchParams := [("lat", "42"), ("lng", "12"), ("other", "7")] },
             [⟨[("lat", plainKeyInt), ("lng", plainKeyInt)], {}, [], []⟩]⟩).2.1.queue.pending
            k' = none ∧
        TraceEvent.emitEv k' ∉ (updateImpl toString 0 StateUpdater.clearAll {} 0 1
            ⟨{ searchParams := [("lat", "42"), ("lng", "12"), ("other", "7")] },
             [⟨[("lat", plainKeyInt), ("lng", plainKeyInt)], {}, [], []⟩]⟩).2.2 ∧
        lookupKey (flushNow (updateImpl toString 0 StateUpdater.clearAll {} 0 1
            ⟨{ searchParams := [("lat", "42"), ("lng", "12"), ("other", "7")] },
             [⟨[("lat", plainKeyInt), ("lng", plainKeyInt)], {}, [], []⟩]⟩).2.1.queue
            0).searchParams k' =
          lookupKey ({ searchParams := [("lat", "42"), ("lng", "12"), ("other", "7")] } :
            QueueWorld).searchParams k')) := by
  refine ⟨by decide, rfl, ?_⟩
  exact C5_clear_all toString [("lat", plainKeyInt), ("lng", plainKeyInt)] {} {}
    [] [] { searchParams := [("lat", "42"), ("lng", "12"), ("other", "7")] }
    0 1 0 (by decide) rfl _ rfl

/-- Evaluation of one `update` call carrying a single-key mapping issued by
the first of two bindings that both manage the key: the Update Queue receives
the serialized value, and the synchronous emit updates both bindings' local
state and query caches before the call returns. -/
theorem updateImpl_two_bindings {α : Type} [DecidableEq α]
    (js : α → String) (k : String) (pA pB : KeyMapValue α)
    (gA gB : HookOptions) (co : Options) (v v' : Option α) (s' : Option String)
    (sA : List (String × Option α)) (qA : List (String × Option String))
    (sB : List (String × Option α)) (qB : List (String × Option String))
    (queue₀ Q : QueueWorld) (now f : Nat)
    (hv' : (if shouldClearOnDefault co pA gA v then none else v) = v')
    (hs' : v'.map (pA.serialize.getD js) = s')
    (hQ : Q = { queue₀ with
                pending := upsert queue₀.pending k ⟨s', resolveOptions co pA gA⟩ }) :
    updateImpl js 0 (StateUpdater.map [(k, v)]) co now f
      ⟨queue₀, [⟨[(k, pA)], gA, sA, qA⟩, ⟨[(k, pB)], gB, sB, qB⟩]⟩ =
      ((scheduleFlushToURL Q now f).1,
       ⟨(scheduleFlushToURL Q now f).2,
        [⟨[(k, pA)], gA, upsert sA k (jsNullish v' pA.defaultValue),
          upsert (upsert qA k s') k (jsNullish s' none)⟩,
         ⟨[(k, pB)], gB, upsert sB k (jsNullish v' pB.defaultValue),
          upsert qB k (jsNullish s' none)⟩]⟩,
       [TraceEvent.enqueueEv k s', TraceEvent.emitEv k,
        TraceEvent.scheduleEv (scheduleFlushToURL Q now f).1]) := by
  subst hv' hs' hQ
  simp [updateImpl, processUpdateEntries, emitPage, applyCrossHookSync,
    enqueueQueryStringUpdate, lookupKey]

/-- C6: a binding's consumer-local state for a key always reflects its own
queued write or the latest broadcast: when one of two bindings managing the
same key issues an update, the other binding's resolved state for the key is
replaced synchronously (before the flush), and after the flush both bindings
re-derive (through `parseMap` with their caches) the same committed value. -/
theorem C6_cross_hook_sync {α : Type} [DecidableEq α]
    (js : α → String) (k : String) (pA pB : KeyMapValue α) (gA gB : HookOptions)
    (co : Options) (v : α)
    (sA : List (String × Option α)) (qA : List (String × Option String))
    (sB : List (String × Option α)) (qB : List (String × Option String))
    (queue₀ : QueueWorld) (now f nowF : Nat)
    (hnd : keysNodup queue₀.pending)
    (hclear : shouldClearOnDefault co pA gA (some v) = false)
    (r : Nat × PageWorld α × List TraceEvent)
    (hr : r = updateImpl js 0 (StateUpdater.map [(k, some v)]) co now f
      ⟨queue₀, [⟨[(k, pA)], gA, sA, qA⟩, ⟨[(k, pB)], gB, sB, qB⟩]⟩) :
    r.2.1.bindings.map (fun b => lookupKey b.stateRef k) =
      [some (some v), some (some v)] ∧
    lookupKey (flushNow r.2.1.queue nowF).searchParams k =
      some ((pA.serialize.getD js) v) ∧
    r.2.1.bindings.map (fun b =>
      lookupKey (parseMap b.keyMap (flushNow r.2.1.queue nowF).searchParams
        (some b.queryRef) (some b.stateRef)).1 k) =
      [some (some v), some (some v)] := by
  have hv' : (if shouldClearOnDefault co pA gA (some v) then none else some v) =
      some v := by
    rw [hclear]
    simp
  have h2 := updateImpl_two_bindings js k pA pB gA gB co (some v) (some v)
    (some ((pA.serialize.getD js) v)) sA qA sB qB queue₀
    { queue₀ with pending := upsert queue₀.pending k ⟨some ((pA.serialize.getD js) v), resolveOptions co pA gA⟩ }
    now f hv' rfl rfl
  rw [h2] at hr
  subst hr
  have hpend := scheduleFlushToURL_pending
    { queue₀ with pending := upsert queue₀.pending k ⟨some ((pA.serialize.getD js) v), resolveOptions co pA gA⟩ }
    now f
  have hcached := scheduleFlushToURL_cached
    { queue₀ with pending := upsert queue₀.pending k ⟨some ((pA.serialize.getD js) v), resolveOptions co pA gA⟩ }
    now f
  have hsp := scheduleFlushToURL_searchParams
    { queue₀ with pending := upsert queue₀.pending k ⟨some ((pA.serialize.getD js) v), resolveOptions co pA gA⟩ }
    now f
  have hflush : (flushNow (scheduleFlushToURL
      { queue₀ with pending := upsert queue₀.pending k ⟨some ((pA.serialize.getD js) v), resolveOptions co pA gA⟩ }
      now f).2 nowF).searchParams =
      applyPending
        (upsert queue₀.pending k ⟨some ((pA.serialize.getD js) v), resolveOptions co pA gA⟩)
        queue₀.searchParams := by
    unfold flushNow
    rw [hcached]
    show applyPending _ _ = _
    rw [hpend, hsp]
  have hPk : lookupKey (flushNow (scheduleFlushToURL
      { queue₀ with pending := upsert queue₀.pending k ⟨some ((pA.serialize.getD js) v), resolveOptions co pA gA⟩ }
      now f).2 nowF).searchParams k = some ((pA.serialize.getD js) v) := by
    rw [hflush]
    have := applyPending_lookup_some
      (upsert queue₀.pending k ⟨some ((pA.serialize.getD js) v), resolveOptions co pA gA⟩)
      queue₀.searchParams k
      ⟨some ((pA.serialize.getD js) v), resolveOptions co pA gA⟩
      (keysNodup_upsert _ _ _ hnd) (lookupKey_upsert_self _ _ _)
    simpa using this
  refine ⟨?_, hPk, ?_⟩
  · simp [lookupKey_upsert_self]
  · have hkA : lookupKey [(k, pA)] k = some pA := by simp [lookupKey]
    have hkB : lookupKey [(k, pB)] k = some pB := by simp [lookupKey]
    have hA := parseMap_cached_lookup [(k, pA)]
      (flushNow (scheduleFlushToURL
        { queue₀ with pending := upsert queue₀.pending k ⟨some ((pA.serialize.getD js) v), resolveOptions co pA gA⟩ }
        now f).2 nowF).searchParams
      (upsert (upsert qA k (some ((pA.serialize.getD js) v))) k
        (jsNullish (some ((pA.serialize.getD js) v)) none))
      (upsert sA k (jsNullish (some v) pA.defaultValue)) k pA hkA
    have hB := parseMap_cached_lookup [(k, pB)]
      (flushNow (scheduleFlushToURL
        { queue₀ with pending := upsert queue₀.pending k ⟨some ((pA.serialize.getD js) v), resolveOptions co pA gA⟩ }
        now f).2 nowF).searchParams
      (upsert qB k (jsNullish (some ((pA.serialize.getD js) v)) none))
      (upsert sB k (jsNullish (some v) pB.defaultValue)) k pB hkB
    rw [hPk] at hA hB
    rw [lookupKey_upsert_self] at hA hB
    rw [lookupKey_upsert_self] at hA hB
    simp only [jsNullish_some, jsNullish_none] at hA hB
    simp only [List.map_cons, List.map_nil, jsNullish_some]
    rw [hA, hB]
    simp

/-- Witness for C6 at a concrete input: two bindings both managing `k`; the
first writes 42, the second observes 42 before the flush, and both derive 42
from the URL after the flush. -/
theorem C6_cross_hook_sync_witness :
    keysNodup ({} : QueueWorld).pending ∧
    shouldClearOnDefault {} plainKeyInt {} (some (42 : Int)) = false ∧
    ((updateImpl toString 0 (StateUpdater.map [("k", some (42 : Int))]) {} 0 1
        ⟨{}, [⟨[("k", plainKeyInt)], {}, [], []⟩,
              ⟨[("k", plainKeyInt)], {}, [], []⟩]⟩).2.1.bindings.map
        (fun b => lookupKey b.stateRef "k") =
      [some (some 42), some (some 42)] ∧
     lookupKey (flushNow (updateImpl toString 0
        (StateUpdater.map [("k", some (42 : Int))]) {} 0 1
        ⟨{}, [⟨[("k", plainKeyInt)], {}, [], []⟩,
              ⟨[("k", plainKeyInt)], {}, [], []⟩]⟩).2.1.queue 0).searchParams "k" =
      some ((plainKeyInt.serialize.getD toString) 42) ∧
     (updateImpl toString 0 (StateUpdater.map [("k", some (42 : Int))]) {} 0 1
        ⟨{}, [⟨[("k", plainKeyInt)], {}, [], []⟩,
              ⟨[("k", plainKeyInt)], {}, [], []⟩]⟩).2.1.bindings.map
        (fun b => lookupKey (parseMap b.keyMap
          (flushNow (updateImpl toString 0
            (StateUpdater.map [("k", some (42 : Int))]) {} 0 1
            ⟨{}, [⟨[("k", plainKeyInt)], {}, [], []⟩,
                  ⟨[("k", plainKeyInt)], {}, [], []⟩]⟩).2.1.queue 0).searchParams
          (some b.queryRef) (some b.stateRef)).1 "k") =
      [some (some 42), some (some 42)]) :=
  ⟨by decide, by decide,
   C6_cross_hook_sync toString "k" plainKeyInt plainKeyInt {} {} {} 42
     [] [] [] [] {} 0 1 0 (by decide) (by decide) _ rfl⟩

theorem applyCrossHookSync_keyMap {α : Type} [DecidableEq α] (k : String)
    (payload : Option α × Option String) (b : Binding α) :
    (applyCrossHookSync k payload b).keyMap = b.keyMap := by
  unfold applyCrossHookSync
  cases lookupKey b.keyMap k <;> rfl

/-- Every event the update loop itself produces is an enqueue or an emit. -/
theorem processUpdateEntries_trace_shape {α : Type} [DecidableEq α]
    (js : α → String) (i : Nat) (co : Options) :
    ∀ (entries : List (String × Option α)) (w : PageWorld α)
      (e : TraceEvent), e ∈ (processUpdateEntries js i co entries w).2 →
      (∃ k q, e = TraceEvent.enqueueEv k q) ∨ (∃ k, e = TraceEvent.emitEv k) := by
  intro entries
  induction entries with
  | nil =>
      intro w e he
      simp [processUpdateEntries] at he
  | cons hd rest ih =>
      intro w e he
      obtain ⟨k₀, v₀⟩ := hd
      cases hb : w.bindings[i]? with
      | none =>
          simp only [processUpdateEntries, hb] at he
          exact ih w e he
      | some b =>
          cases hl : lookupKey b.keyMap k₀ with
          | none =>
              simp only [processUpdateEntries, hb, hl] at he
              exact ih w e he
          | some parser =>
              simp only [processUpdateEntries, hb, hl, List.mem_cons] at he
              rcases he with he | he | he
              · exact Or.inl ⟨k₀, _, he⟩
              · exact Or.inr ⟨k₀, he⟩
              · exact ih _ e he

/-- The update loop emits the cross-hook payload for every entry whose key
the issuing binding manages (the binding is addressed through the world to
keep the statement stable across loop iterations). -/
theorem processUpdateEntries_emit_mem {α : Type} [DecidableEq α]
    (js : α → String) (i : Nat) (co : Options) (k : String) :
    ∀ (entries : List (String × Option α)) (w : PageWorld α)
      (v : Option α) (parser : KeyMapValue α),
      (w.bindings[i]?).bind (fun b => lookupKey b.keyMap k) = some parser →
      (k, v) ∈ entries →
      TraceEvent.emitEv k ∈ (processUpdateEntries js i co entries w).2 := by
  intro entries
  induction entries with
  | nil =>
      intro w v parser _ hmem
      simp at hmem
  | cons hd rest ih =>
      intro w v parser hbp hmem
      obtain ⟨k₀, v₀⟩ := hd
      cases hb : w.bindings[i]? with
      | none => rw [hb] at hbp; exact Option.noConfusion hbp
      | some b =>
          rw [hb] at hbp
          simp only [Option.some_bind] at hbp
          have hlen : i < w.bindings.length := by
            rcases List.getElem?_eq_some.mp hb with ⟨hlt, -⟩
            exact hlt
          cases hl₀ : lookupKey b.keyMap k₀ with
          | none =>
              simp only [processUpdateEntries, hb, hl₀]
              rcases List.mem_cons.mp hmem with hmem | hmem
              · have hk : k = k₀ := congrArg Prod.fst hmem
                rw [← hk] at hl₀
                rw [hbp] at hl₀
                exact Option.noConfusion hl₀
              · exact ih w v parser (by rw [hb]; simpa using hbp) hmem
          | some parser₀ =>
              simp only [processUpdateEntries, hb, hl₀, List.mem_cons]
              rcases List.mem_cons.mp hmem with hmem | hmem
              · have hk : k = k₀ := congrArg Prod.fst hmem
                subst hk
                right; left; rfl
              · refine Or.inr (Or.inr (ih _ v parser ?_ hmem))
                show ((emitPage _ _ _).bindings[i]?).bind _ = some parser
                simp only [emitPage]
                rw [List.getElem?_map, List.getElem?_set_self hlen]
                simp only [Option.map_some', Option.some_bind]
                rw [applyCrossHookSync_keyMap]
                exact hbp

/-- C7: within one `update` call, the Event Bus emit for each updated key is
executed synchronously before the flush Promise is created/returned: the
call's trace is the loop's enqueue/emit events followed by the single
schedule event, the loop's events contain an emit for every managed updated
key, and no promise resolution can occur inside the synchronous call. -/
theorem C7_emit_before_promise {α : Type} [DecidableEq α] (js : α → String)
    (i : Nat) (co : Options) (now f : Nat) (m : List (String × Option α))
    (w : PageWorld α) (b : Binding α) (hb : w.bindings[i]? = some b)
    (r : Nat × PageWorld α × List TraceEvent)
    (hr : r = updateImpl js i (StateUpdater.map m) co now f w) :
    r.2.2 = (processUpdateEntries js i co m w).2 ++ [TraceEvent.scheduleEv r.1] ∧
    (∀ e ∈ (processUpdateEntries js i co m w).2,
      (∃ k q, e = TraceEvent.enqueueEv k q) ∨ (∃ k, e = TraceEvent.emitEv k)) ∧
    (∀ k v parser, (k, v) ∈ m → lookupKey b.keyMap k = some parser →
      TraceEvent.emitEv k ∈ (processUpdateEntries js i co m w).2) ∧
    (∀ pid, TraceEvent.resolveEv pid ∉ r.2.2) := by
  have hu : updateImpl js i (StateUpdater.map m) co now f w =
      ((scheduleFlushToURL (processUpdateEntries js i co m w).1.queue now f).1,
       ⟨(scheduleFlushToURL (processUpdateEntries js i co m w).1.queue now f).2,
        (processUpdateEntries js i co m w).1.bindings⟩,
       (processUpdateEntries js i co m w).2 ++
         [TraceEvent.scheduleEv
           (scheduleFlushToURL (processUpdateEntries js i co m w).1.queue now f).1]) := by
    simp [updateImpl, hb]
  rw [hu] at hr
  subst hr
  refine ⟨rfl, processUpdateEntries_trace_shape js i co m w, ?_, ?_⟩
  · intro k v parser hmem hl
    exact processUpdateEntries_emit_mem js i co k m w v parser
      (by rw [hb]; simpa using hl) hmem
  · intro pid hmem
    simp only [List.mem_append] at hmem
    rcases hmem with hmem | hmem
    · rcases processUpdateEntries_trace_shape js i co m w _ hmem with ⟨k, q, he⟩ | ⟨k, he⟩
      · exact TraceEvent.noConfusion he
      · exact TraceEvent.noConfusion he
    · simp at hmem

/-- Witness for C7 at a concrete input: a single-binding page updating `k`;
the trace is enqueue, emit, then schedule, with no resolution event. -/
theorem C7_emit_before_promise_witness :
    (⟨{}, [⟨[("k", plainKeyInt)], {}, [], []⟩]⟩ :
      PageWorld Int).bindings[0]? = some ⟨[("k", plainKeyInt)], {}, [], []⟩ ∧
    ((updateImpl toString 0 (StateUpdater.map [("k", some (5 : Int))]) {} 0 1
        ⟨{}, [⟨[("k", plainKeyInt)], {}, [], []⟩]⟩).2.2 =
      (processUpdateEntries toString 0 {} [("k", some (5 : Int))]
        ⟨{}, [⟨[("k", plainKeyInt)], {}, [], []⟩]⟩).2 ++
        [TraceEvent.scheduleEv (updateImpl toString 0
          (StateUpdater.map [("k", some (5 : Int))]) {} 0 1
          ⟨{}, [⟨[("k", plainKeyInt)], {}, [], []⟩]⟩).1] ∧
     (∀ e ∈ (processUpdateEntries toString 0 {} [("k", some (5 : Int))]
        ⟨{}, [⟨[("k", plainKeyInt)], {}, [], []⟩]⟩).2,
       (∃ k q, e = TraceEvent.enqueueEv k q) ∨ (∃ k, e = TraceEvent.emitEv k)) ∧
     (∀ k v parser, (k, v) ∈ [("k", some (5 : Int))] →
       lookupKey [("k", plainKeyInt)] k = some parser →
       TraceEvent.emitEv k ∈ (processUpdateEntries toString 0 {}
         [("k", some (5 : Int))]
         ⟨{}, [⟨[("k", plainKeyInt)], {}, [], []⟩]⟩).2) ∧
     (∀ pid, TraceEvent.resolveEv pid ∉ (updateImpl toString 0
        (StateUpdater.map [("k", some (5 : Int))]) {} 0 1
        ⟨{}, [⟨[("k", plainKeyInt)], {}, [], []⟩]⟩).2.2)) :=
  ⟨rfl,
   C7_emit_before_promise toString 0 {} 0 1 [("k", some (5 : Int))]
     ⟨{}, [⟨[("k", plainKeyInt)], {}, [], []⟩]⟩
     ⟨[("k", plainKeyInt)], {}, [], []⟩ rfl _ rfl⟩

/-- C10: an updater function passed to a second same-tick update call is
applied to the binding's synchronously maintained `stateRef.current`, which
already contains the value written by the first call (delivered through the
binding's own synchronous emit handler, before any re-render): the second
call behaves exactly like a call with the explicit mapping the updater
returns on that state, and that state holds the first call's value. -/
theorem C10_updater_composes {α : Type} [DecidableEq α] (js : α → String)
    (k : String) (parser : KeyMapValue α) (g : HookOptions) (co₁ co₂ : Options)
    (v : α) (sR : List (String × Option α)) (qR : List (String × Option String))
    (queue₀ : QueueWorld) (now₁ f₁ now₂ f₂ : Nat)
    (hclear : shouldClearOnDefault co₁ parser g (some v) = false)
    (w₁ : PageWorld α)
    (hw₁ : w₁ = (updateImpl js 0 (StateUpdater.map [(k, some v)]) co₁ now₁ f₁
      ⟨queue₀, [⟨[(k, parser)], g, sR, qR⟩]⟩).2.1)
    (fn : List (String × Option α) → List (String × Option α)) :
    ∀ b₁, w₁.bindings[0]? = some b₁ →
      lookupKey b₁.stateRef k = some (some v) ∧
      updateImpl js 0 (StateUpdater.fn fn) co₂ now₂ f₂ w₁ =
        updateImpl js 0 (StateUpdater.map (fn b₁.stateRef)) co₂ now₂ f₂ w₁ := by
  have hv' : (if shouldClearOnDefault co₁ parser g (some v) then none else some v) =
      some v := by
    rw [hclear]
    simp
  have h1 := updateImpl_single_binding js k parser g co₁ (some v) (some v)
    (some ((parser.serialize.getD js) v)) sR qR queue₀
    { queue₀ with pending := upsert queue₀.pending k ⟨some ((parser.serialize.getD js) v), resolveOptions co₁ parser g⟩ }
    now₁ f₁ hv' rfl rfl
  rw [h1] at hw₁
  subst hw₁
  intro b₁ hb₁
  have hb : b₁ = ⟨[(k, parser)], g,
      upsert sR k (jsNullish (some v) parser.defaultValue),
      upsert (upsert qR k (some ((parser.serialize.getD js) v))) k
        (jsNullish (some ((parser.serialize.getD js) v)) none)⟩ := by
    have : some b₁ = some (⟨[(k, parser)], g,
        upsert sR k (jsNullish (some v) parser.defaultValue),
        upsert (upsert qR k (some ((parser.serialize.getD js) v))) k
          (jsNullish (some ((parser.serialize.getD js) v)) none)⟩ : Binding α) := by
      rw [← hb₁]
      rfl
    exact Option.some.inj this
  subst hb
  constructor
  · show lookupKey (upsert sR k (jsNullish (some v) parser.defaultValue)) k =
      some (some v)
    rw [jsNullish_some]
    exact lookupKey_upsert_self _ _ _
  · rfl

/-- Witness for C10 at a concrete input: after writing 7 to `k`, the
binding's state shows 7 before any re-render, and a second call with an
updater function equals the call with the mapping produced from that state. -/
theorem C10_updater_composes_witness :
    shouldClearOnDefault {} plainKeyInt {} (some (7 : Int)) = false ∧
    (lookupKey [("k", (some (7 : Int) : Option Int))] "k" = some (some 7) ∧
     updateImpl toString 0 (StateUpdater.fn (fun _ => [("k", some (9 : Int))]))
        {} 0 1
        (updateImpl toString 0 (StateUpdater.map [("k", some (7 : Int))]) {} 0 1
          ⟨{}, [⟨[("k", plainKeyInt)], {}, [], []⟩]⟩).2.1 =
      updateImpl toString 0 (StateUpdater.map
          ((fun _ => [("k", some (9 : Int))]) [("k", (some (7 : Int) : Option Int))]))
        {} 0 1
        (updateImpl toString 0 (StateUpdater.map [("k", some (7 : Int))]) {} 0 1
          ⟨{}, [⟨[("k", plainKeyInt)], {}, [], []⟩]⟩).2.1) := by
  refine ⟨by decide, ?_⟩
  exact C10_updater_composes toString "k" plainKeyInt {} {} {} 7 [] [] {} 0 1 0 1
    (by decide) _ rfl (fun _ => [("k", some 9)])
    ⟨[("k", plainKeyInt)], {}, [("k", some 7)], [("k", some "7")]⟩ rfl
